import Mathlib

/-!
A verification development for the CDCL SAT solver core in `bullsat.hpp`
(namespace `bullsat`).  The C++ code is shallowly embedded: every member
function of `Solver` that the verified properties touch is translated to an
executable Lean definition over a `Solver` record.

Modelling conventions:
* `std::shared_ptr<Clause>` handles are modelled by an arena: `Solver.store`
  is the list of all allocated clauses in allocation order and a `CRef` is an
  index into it (each `std::make_shared` appends a clause and yields a fresh
  index).  Every clause mutation in the source goes through such a handle, so
  it is modelled as an update of `store` at that index.
* A failed C++ `assert`, and `std::optional::value()` on an empty optional,
  abort the program; the corresponding Lean functions return `Except.error`.
* Out-of-bounds `std::vector` reads/writes are undefined behaviour in C++;
  reads are modelled with `List.getD` (default value) and writes with
  `List.set` (no-op out of bounds).  No verified statement relies on the
  out-of-range behaviour except where it exhibits a bug of the source.
* The unbounded `while` loops of `propagate` are modelled with an explicit
  fuel parameter; running out of fuel is an `Except.error`, so any `.ok`
  result is a faithful finite execution of the C++ loop.
* The `int` fields of the source (`levels` entries, decision levels, the
  `counter` of `analyze`) are modelled by `Int`; `std::optional<int>`
  comparisons (`nullopt` is less than every value) are `optLtB` / `optGtB`.
-/

set_option maxHeartbeats 1600000

namespace bullsat

/-- `enum class Status`. -/
inductive Status where
  | Sat
  | Unsat
  | Unknown
deriving DecidableEq, Repr

/-- `enum class LitBool`: truth value of a literal under the assignment. -/
inductive LitBool where
  | True
  | False
  | Undefine
deriving DecidableEq, Repr

/-- `using Var = int`; only non-negative values are ever constructed
(`Lit`'s constructor asserts `v >= 0`), so variables are modelled by `Nat`. -/
abbrev Var := Nat

/-- `struct Lit`: `x` is `2 v` for the positive literal of variable `v` and
`2 v + 1` for the negative literal. -/
structure Lit where
  x : Nat
deriving DecidableEq, Repr, Inhabited

/-- `Lit(Var v, bool positive)`. -/
def mkLit (v : Var) (positive : Bool) : Lit :=
  ⟨if positive then 2 * v else 2 * v + 1⟩

/-- `lit.neg()`: `x & 1`. -/
def Lit.neg (l : Lit) : Bool := l.x % 2 == 1

/-- `lit.pos()`: `!neg()`. -/
def Lit.pos (l : Lit) : Bool := !l.neg

/-- `lit.var()`: `x >> 1`. -/
def Lit.var (l : Lit) : Var := l.x / 2

/-- `lit.vidx()`. -/
def Lit.vidx (l : Lit) : Nat := l.var

/-- `lit.lidx()`. -/
def Lit.lidx (l : Lit) : Nat := l.x

/-- `operator~(Lit)`: `q.x ^= 1`. -/
def Lit.not (l : Lit) : Lit := ⟨l.x ^^^ 1⟩

/-- `using Clause = std::vector<Lit>`. -/
abbrev Clause := List Lit

/-- `using CRef = std::shared_ptr<Clause>`, modelled as an arena index into
`Solver.store`. -/
abbrev CRef := Nat

/-- `class Solver`.  The public data member `std::optional<Status> status` of
the source is never read or written by any member function and is omitted.
`store` is the clause arena backing the `shared_ptr` handles. -/
structure Solver where
  assings : List Bool
  clauses : List CRef
  learnts : List CRef
  watchers : List (List CRef)
  reasons : List (Option CRef)
  levels : List (Option Int)
  que : List Lit
  que_head : Nat
  store : List Clause
deriving DecidableEq, Repr

/-- `Solver(size_t variable_num)`. -/
def mkSolver (variable_num : Nat) : Solver where
  assings := List.replicate variable_num false
  clauses := []
  learnts := []
  watchers := List.replicate (2 * variable_num) []
  reasons := List.replicate variable_num none
  levels := List.replicate variable_num none
  que := []
  que_head := 0
  store := []

/-- `std::optional<int> < int` (C++ optional ordering: `nullopt` is smaller
than every value). -/
def optLtB : Option Int → Int → Bool
  | none, _ => true
  | some a, b => a < b

/-- `std::optional<int> > int` (`nullopt` is smaller than every value). -/
def optGtB : Option Int → Int → Bool
  | none, _ => false
  | some a, b => b < a

/-- `Solver::eval(Lit)`. -/
def Solver.eval (s : Solver) (lit : Lit) : LitBool :=
  if !(s.levels.getD lit.vidx none).isSome then LitBool.Undefine
  else if lit.neg then
    if s.assings.getD lit.vidx false then LitBool.False else LitBool.True
  else
    if s.assings.getD lit.vidx false then LitBool.True else LitBool.False

/-- `Solver::decision_level()`: level of the last trail entry
(`value_or(0)`), or 0 for the empty trail. -/
def Solver.decision_level (s : Solver) : Int :=
  match s.que.getLast? with
  | none => 0
  | some l => (s.levels.getD l.vidx none).getD 0

/-- `Solver::enqueue(Lit, optional<CRef>)`.  The source asserts that the
variable is unassigned (`assert(!levels[lit.vidx()].has_value())`); a failed
assert is an error. -/
def Solver.enqueue (s : Solver) (lit : Lit) (reason : Option CRef) :
    Except String Solver :=
  if (s.levels.getD lit.vidx none).isSome then
    .error "assert failed in enqueue: variable already assigned"
  else
    .ok { s with
      levels := s.levels.set lit.vidx (some s.decision_level)
      assings := s.assings.set lit.vidx lit.pos
      reasons := s.reasons.set lit.vidx reason
      que := s.que ++ [lit] }

/-- `Solver::new_decision(Lit, optional<CRef>)`: enqueue, then
`levels[lit.vidx()].value()++` (`value()` on an empty optional aborts). -/
def Solver.new_decision (s : Solver) (lit : Lit) (reason : Option CRef) :
    Except String Solver :=
  match s.enqueue lit reason with
  | .error e => .error e
  | .ok t =>
    match t.levels.getD lit.vidx none with
    | none => .error "bad optional access in new_decision"
    | some d => .ok { t with levels := t.levels.set lit.vidx (some (d + 1)) }

/-- The `while` loop of `Solver::pop_queue_until`, expressed structurally
over the reversed trail (the C++ loop pops from the back of `que`; here the
reversed trail is consumed from the front).  While the level of the head
entry exceeds `until_level`, its reason and level are cleared and it is
dropped; the first entry at or below `until_level` stops the loop. -/
def popRev (b : Int) :
    List (Option Int) → List (Option CRef) → List Lit →
      List (Option Int) × List (Option CRef) × List Lit
  | levels, reasons, [] => (levels, reasons, [])
  | levels, reasons, l :: rest =>
    if optGtB (levels.getD l.vidx none) b then
      popRev b (levels.set l.vidx none) (reasons.set l.vidx none) rest
    else (levels, reasons, l :: rest)

/-- The survival test of the pop loop: an entry is kept iff its stored
level does not exceed the target level. -/
def keepB (s : Solver) (b : Int) (l : Lit) : Bool :=
  !optGtB (s.levels.getD l.vidx none) b

/-- The `while` loop of `Solver::pop_queue_until` acting on a solver state. -/
def popLoop (s : Solver) (until_level : Int) : Solver :=
  match popRev until_level s.levels s.reasons s.que.reverse with
  | (lv, rs, qr) => { s with levels := lv, reasons := rs, que := qr.reverse }

/-- `Solver::pop_queue_until(int)`: asserts the trail is non-empty, runs the
pop loop, then resets the propagation cursor to `size - 1` (or 0 when the
trail became empty). -/
def Solver.pop_queue_until (s : Solver) (until_level : Int) :
    Except String Solver :=
  if s.que.isEmpty then .error "assert failed in pop_queue_until: empty queue"
  else
    let t := popLoop s until_level
    .ok { t with que_head := if 0 < t.que.length then t.que.length - 1 else 0 }

/-- `Solver::new_var()`: append two watcher lists (literal indexed) and one
slot to each per-variable array. -/
def Solver.new_var (s : Solver) : Solver :=
  { s with
    watchers := s.watchers ++ [[], []]
    assings := s.assings ++ [false]
    reasons := s.reasons ++ [none]
    levels := s.levels ++ [none] }

/-- The clause a handle points at (`*cr`). -/
def Solver.clauseOf (s : Solver) (cr : CRef) : Clause := s.store.getD cr []

/-- `Solver::attach_clause(CRef, bool)`: asserts `clause.size() > 1`, then
pushes the handle onto the watcher lists of the negations of the first two
literals and registers it in the clause database. -/
def Solver.attach_clause (s : Solver) (cr : CRef) (learnt : Bool) :
    Except String Solver :=
  let clause := s.clauseOf cr
  if clause.length ≤ 1 then
    .error "assert failed in attach_clause: clause.size() > 1"
  else
    let w0 := (clause.getD 0 default).not.lidx
    let w1 := (clause.getD 1 default).not.lidx
    let ws1 := s.watchers.set w0 ((s.watchers.getD w0 []) ++ [cr])
    let ws2 := ws1.set w1 ((ws1.getD w1 []) ++ [cr])
    .ok { s with
      watchers := ws2
      clauses := s.clauses ++ [cr]
      learnts := if learnt then s.learnts ++ [cr] else s.learnts }

/-- The growth loop of `Solver::add_clause`: for each literal, if its
variable index is at least the current variable count, call `new_var` once. -/
def Solver.grow (s : Solver) (clause : Clause) : Solver :=
  clause.foldl (fun t l => if t.assings.length ≤ l.vidx then t.new_var else t) s

/-- `Solver::add_clause(const Clause&)`: grow the variable space, then either
assert a unit clause via `enqueue` or allocate (`make_shared`) and attach. -/
def Solver.add_clause (s : Solver) (clause : Clause) : Except String Solver :=
  let t := s.grow clause
  if clause.length = 1 then
    t.enqueue (clause.getD 0 default) none
  else
    let cr := t.store.length
    let t2 := { t with store := t.store ++ [clause] }
    t2.attach_clause cr false

/-- `std::swap(l[i], l[j])` on a list. -/
def swapIdx (l : List α) (i j : Nat) (d : α) : List α :=
  (l.set i (l.getD j d)).set j (l.getD i d)

/-- Helper for `findNonFalse`: scan a literal list, returning the running
index of the first literal that does not evaluate to `False`. -/
def findNonFalseAux (s : Solver) : List Lit → Nat → Option Nat
  | [], _ => none
  | l :: rest, k =>
    if s.eval l ≠ LitBool.False then some k
    else findNonFalseAux s rest (k + 1)

/-- The `for (size_t k = 2; ...)` search of `Solver::propagate`: the first
index `≥ k` whose literal does not evaluate to `False`. -/
def findNonFalse (s : Solver) (clause : Clause) (k : Nat) : Option Nat :=
  findNonFalseAux s (clause.drop k) k

/-- Outcome of one iteration of the inner watcher-list loop of
`Solver::propagate`: keep the watch and advance the index (the clause was
satisfied, or unit propagation succeeded), move the watch and stay at the
same index (the swap-pop put a new clause in the current slot), or conflict
(all literals `False`; the propagation cursor was pushed to the trail
end). -/
inductive InnerRes where
  | keep (s1 : Solver)
  | moved (s1 : Solver)
  | conflict (s1 : Solver) (cr : CRef)

/-- The solver state carried by an inner-loop outcome. -/
def InnerRes.state : InnerRes → Solver
  | .keep s1 => s1
  | .moved s1 => s1
  | .conflict s1 _ => s1

/-- The part of one inner-loop iteration of `Solver::propagate` that runs
after the watched-literal normalization, on the already-normalized state
`s1` whose clause `cr` reads `first :: w1 :: crest` (the source's asserts
check `w1 == ~lit` here): keep the watch when `first` is `True`, otherwise
look for a non-`False` literal at index ≥ 2 and move the watch (swap it to
position 1, swap-pop the handle from the current list, push it onto the
new watch's list), otherwise conflict (if `first` is `False`, setting
`que_head` to the trail length) or unit propagation
(`enqueue(first, cr)`). -/
def propCheckBody (lit : Lit) (cr : CRef) (i : Nat) (s1 : Solver)
    (first w1 : Lit) (crest : List Lit) : Except String InnerRes :=
  let cl := first :: w1 :: crest
  if w1 = lit.not ∧ s1.eval w1 = LitBool.False then
    if s1.eval first = LitBool.True then .ok (.keep s1)
    else
      match findNonFalse s1 cl 2 with
      | some k =>
        let cl2 := swapIdx cl 1 k default
        let wl1 := s1.watchers.getD lit.lidx []
        let wl2 := (wl1.set i (wl1.getD (wl1.length - 1) 0)).dropLast
        let ws2 := s1.watchers.set lit.lidx wl2
        let tgt := (cl2.getD 1 default).not.lidx
        let ws3 := ws2.set tgt ((ws2.getD tgt []) ++ [cr])
        .ok (.moved { s1 with store := s1.store.set cr cl2, watchers := ws3 })
      | none =>
        if s1.eval first = LitBool.False then
          .ok (.conflict { s1 with que_head := s1.que.length } cr)
        else
          if s1.eval first = LitBool.Undefine then
            match s1.enqueue first (some cr) with
            | .error e => .error e
            | .ok s2 => .ok (.keep s2)
          else .error "assert failed in propagate: eval(first) Undefine"
  else .error "assert failed in propagate: clause[1] == nlit and False"

/-- One iteration of the inner watcher-list loop of `Solver::propagate`, on
the clause at position `i` of `watchers[lit.lidx()]`.  Structured exactly
as the source: normalize so that `clause[1] == ~lit` (swapping `clause[0]`
and `clause[1]` in place if needed, via the clause handle), then run the
common body `propCheckBody`. -/
def propCheck (lit : Lit) (s : Solver) (i : Nat) : Except String InnerRes :=
  let wl := s.watchers.getD lit.lidx []
  let cr := wl.getD i 0
  match s.clauseOf cr with
  | c0 :: c1 :: crest =>
    if c0 = lit.not ∨ c1 = lit.not then
      let first := if c0 = lit.not then c1 else c0
      let w1 := if c0 = lit.not then c0 else c1
      let s1 := if c0 = lit.not then
        { s with store := s.store.set cr (c1 :: c0 :: crest) } else s
      propCheckBody lit cr i s1 first w1 crest
    else .error "assert failed in propagate: watched literal in clause"
  | _ => .error "out-of-bounds clause access in propagate"

/-- The inner watcher-list loop of `Solver::propagate`, processing the list
`watchers[lit.lidx()]` from index `i` on (`for (size_t i = 0;
i < watcher.size();)`): the index advances on keep, stays on a watch move,
and the loop ends on a conflict or at the end of the list. -/
def propInner (lit : Lit) : Nat → Solver → Nat → Except String (Solver × Option CRef)
  | 0, _, _ => .error "propagate fuel exhausted"
  | fuel + 1, s, i =>
    if i < (s.watchers.getD lit.lidx []).length then
      match propCheck lit s i with
      | .error e => .error e
      | .ok (.keep s1) => propInner lit fuel s1 (i + 1)
      | .ok (.moved s1) => propInner lit fuel s1 i
      | .ok (.conflict s1 cr) => .ok (s1, some cr)
    else .ok (s, none)

/-- The outer `while (que_head < que.size())` loop of `Solver::propagate`. -/
def propOuter : Nat → Solver → Except String (Solver × Option CRef)
  | 0, _ => .error "propagate fuel exhausted"
  | fuel + 1, s =>
    if s.que_head < s.que.length then
      let lit := s.que.getD s.que_head default
      let s1 := { s with que_head := s.que_head + 1 }
      match propInner lit (fuel + 1) s1 0 with
      | .error e => .error e
      | .ok (s2, some cr) => .ok (s2, some cr)
      | .ok (s2, none) => propOuter fuel s2
    else .ok (s, none)

/-- `Solver::propagate()`, with fuel for the two unbounded loops.  Returns
the post-state and the conflicting clause handle if any. -/
def Solver.propagate (s : Solver) (fuel : Nat) :
    Except String (Solver × Option CRef) :=
  propOuter fuel s

/-- `std::unordered_set<Var>::insert`, on the membership model of a list. -/
def insertVar (v : Var) (checking : List Var) : List Var :=
  if v ∈ checking then checking else v :: checking

/-- The seed loop of `Solver::analyze`: for every literal of the conflicting
clause (asserted to evaluate to `False`), mark its variable and either
append it to the learnt clause (level below the conflicted level) or count
it. -/
def analyzeSeed (s : Solver) (d : Int) :
    List Lit → List Var × Int × Clause → Except String (List Var × Int × Clause)
  | [], acc => .ok acc
  | lit :: rest, (checking, counter, learnt) =>
    if s.eval lit ≠ LitBool.False then
      .error "assert failed in analyze: eval(lit) == False"
    else
      let checking1 := insertVar lit.var checking
      if optLtB (s.levels.getD lit.vidx none) d then
        analyzeSeed s d rest (checking1, counter, learnt ++ [lit])
      else
        analyzeSeed s d rest (checking1, counter + 1, learnt)

/-- The reason-clause scan (`for (size_t j = 1; ...)`) of `Solver::analyze`:
unseen variables are marked and either appended to the learnt clause or
counted. -/
def analyzeSeen (s : Solver) (d : Int) :
    List Lit → List Var × Int × Clause → List Var × Int × Clause
  | [], acc => acc
  | clit :: rest, (checking, counter, learnt) =>
    if clit.var ∈ checking then analyzeSeen s d rest (checking, counter, learnt)
    else
      let checking1 := clit.var :: checking
      if optLtB (s.levels.getD clit.vidx none) d then
        analyzeSeen s d rest (checking1, counter, learnt ++ [clit])
      else
        analyzeSeen s d rest (checking1, counter + 1, learnt)

/-- The backward trail walk of `Solver::analyze`
(`for (size_t i = que.size() - 1; true; i--)`), returning the position of
the first UIP together with the learnt-clause literals collected so far.
Walking past position 0 would wrap the `size_t` index and read out of
bounds; that is an error. -/
def analyzeWalk (s : Solver) (d : Int) :
    Nat → List Var → Int → Clause → Except String (Nat × Clause)
  | i, checking, counter, learnt =>
    if (s.que.getD i default).var ∈ checking then
      if counter - 1 ≤ 0 then .ok (i, learnt)
      else
        match s.reasons.getD (s.que.getD i default).vidx none with
        | none => .error "assert failed in analyze: reason has_value"
        | some cr =>
          match s.clauseOf cr with
          | [] => .error "out-of-bounds clause access in analyze"
          | c0 :: ctail =>
            if c0 ≠ s.que.getD i default then
              .error "assert failed in analyze: clause[0] == lit"
            else
              match analyzeSeen s d ctail
                  (insertVar (s.que.getD i default).var checking,
                    counter - 1, learnt) with
              | (checking2, counter2, learnt2) =>
                match i with
                | 0 => .error "trail walk wrapped in analyze"
                | i2 + 1 => analyzeWalk s d i2 checking2 counter2 learnt2
    else
      match i with
      | 0 => .error "trail walk wrapped in analyze"
      | i2 + 1 => analyzeWalk s d i2 checking counter learnt

/-- The back-jump computation of `Solver::analyze`
(`for (size_t i = 1; ...) back_jump_level = max(...)`), asserting every
level is present. -/
def bjFold (s : Solver) : Int → List Lit → Except String Int
  | acc, [] => .ok acc
  | acc, l :: rest =>
    match s.levels.getD l.vidx none with
    | none => .error "assert failed in analyze: levels has_value"
    | some v => bjFold s (max acc v) rest

/-- The 1-UIP search of `Solver::analyze`: the seed loop over the conflict
clause (with its `counter >= 1` assert) followed by the backward trail walk
that computes `first_uip`.  Returns the trail position at which the walk's
counter reached zero — the first unique implication point — together with
the learnt-clause literals collected so far.  This is exactly the prefix of
`Solver.analyze` before `learnt_clause.push_back(~first_uip)`. -/
def Solver.uipPos (s : Solver) (conflict : CRef) :
    Except String (Nat × Clause) :=
  match analyzeSeed s s.decision_level (s.clauseOf conflict) ([], 0, []) with
  | .error e => .error e
  | .ok (checking, counter, learnt0) =>
    if counter < 1 then .error "assert failed in analyze: counter >= 1"
    else if s.que.length = 0 then .error "trail walk wrapped in analyze"
    else analyzeWalk s s.decision_level (s.que.length - 1) checking counter
      learnt0

/-- `Solver::analyze(CRef)`: returns the learnt clause (asserting literal in
front, `learnt_clause.push_back(~first_uip)` followed by
`swap(learnt_clause[0], learnt_clause.back())`) and the back-jump level. -/
def Solver.analyze (s : Solver) (conflict : CRef) :
    Except String (Clause × Int) :=
  match analyzeSeed s s.decision_level (s.clauseOf conflict) ([], 0, []) with
  | .error e => .error e
  | .ok (checking, counter, learnt0) =>
    if counter < 1 then .error "assert failed in analyze: counter >= 1"
    else if s.que.length = 0 then .error "trail walk wrapped in analyze"
    else
      match analyzeWalk s s.decision_level (s.que.length - 1) checking counter learnt0 with
      | .error e => .error e
      | .ok (p, learnt1) =>
        let uip := s.que.getD p default
        let lc0 := learnt1 ++ [uip.not]
        let lc := swapIdx lc0 0 (lc0.length - 1) default
        match bjFold s 0 (lc.drop 1) with
        | .error e => .error e
        | .ok b => .ok (lc, b)

/-! ## Invariants of reachable states -/

/-- The stored level of a literal's variable. -/
def levOf (s : Solver) (l : Lit) : Option Int := s.levels.getD l.vidx none

/-- The stored level of a literal's variable, defaulting to 0. -/
def levAt (s : Solver) (l : Lit) : Int := (levOf s l).getD 0

/-- Trail well-formedness, holding in every reachable state: every trail
variable is in bounds for the per-variable arrays, is assigned with its
polarity bit matching its trail literal, no variable appears twice on the
trail, and every assigned variable is on the trail. -/
def TrailWF (s : Solver) : Prop :=
  (∀ l ∈ s.que, l.vidx < s.levels.length ∧ l.vidx < s.reasons.length ∧
    l.vidx < s.assings.length ∧ (levOf s l).isSome ∧
    s.assings.getD l.vidx false = l.pos) ∧
  (s.que.map Lit.vidx).Nodup ∧
  (∀ v < s.levels.length, (s.levels.getD v none).isSome → ∃ l ∈ s.que, l.vidx = v)

/-- Decision levels along the trail never decrease and grow by at most one
per entry, and the first entry is at level 0 or 1.  This holds in every
reachable state: `enqueue` records the current level (that of the last
entry), `new_decision` that level plus one, and `pop_queue_until` removes a
suffix. -/
def LevelChain (s : Solver) : Prop :=
  List.Chain' (fun a b => a ≤ b ∧ b ≤ a + 1) (s.que.map (levAt s)) ∧
  (∀ l ∈ s.que.take 1, levAt s l ≤ 1)

/-- Watcher-index consistency for one stored clause `cr` over a clause arena
`st` and watcher index `ws`: the clause has at least two literals, all its
literals (and their negations) index into `ws`, and each list `ws[li]`
contains `cr` exactly as often as `li` is the index of the negation of the
clause's first or second literal — so `cr` is watched exactly by
`¬C[0]` and `¬C[1]` and sits in no other list. -/
def WatchOk (st : List Clause) (ws : List (List CRef)) (cr : CRef) : Prop :=
  2 ≤ (st.getD cr []).length ∧ cr < st.length ∧
  (∀ l ∈ st.getD cr [], l.lidx < ws.length ∧ l.not.lidx < ws.length) ∧
  (∀ li < ws.length,
    (ws.getD li []).count cr =
      (if li = ((st.getD cr []).getD 0 default).not.lidx then 1 else 0) +
      (if li = ((st.getD cr []).getD 1 default).not.lidx then 1 else 0))

/-- Watcher-index consistency for the whole clause database, plus closure:
watcher lists only hold handles of stored clauses. -/
def WatchB (st : List Clause) (ws : List (List CRef)) (cs : List CRef) : Prop :=
  (∀ cr ∈ cs, WatchOk st ws cr) ∧
  (∀ li < ws.length, ∀ cr ∈ ws.getD li [], cr ∈ cs)

/-- Watcher-index consistency of a solver state. -/
def WatchInv (s : Solver) : Prop := WatchB s.store s.watchers s.clauses

/-- The per-variable arrays have equal lengths and the watcher index twice
as many slots (two literals per variable), as set up by the constructor and
preserved by `new_var`. -/
def LenOk (s : Solver) : Prop :=
  s.levels.length = s.assings.length ∧ s.reasons.length = s.assings.length ∧
  s.watchers.length = 2 * s.assings.length

/-- Reason shape at variable `v`: if `v` has an antecedent clause `R`, then
`v`'s literal sits at some trail position `p`, `R[0]` is that literal, and
every other literal of `R` is `False` with its negation on the trail at or
before position `p`. -/
def reasonShapeAt (s : Solver) (v : Nat) : Prop :=
  ∀ cr ∈ s.reasons.getD v none,
    cr < s.store.length ∧
    ∃ p < s.que.length,
      (s.que.getD p default).vidx = v ∧
      (s.clauseOf cr).head? = some (s.que.getD p default) ∧
      ∀ l' ∈ (s.clauseOf cr).drop 1,
        s.eval l' = LitBool.False ∧ ∃ q ≤ p, s.que.getD q default = l'.not

/-- Reason shape for all variables. -/
def ReasonOk (s : Solver) : Prop := ∀ v < s.reasons.length, reasonShapeAt s v

/-- The combined reachable-state invariant threaded through propagation. -/
def Inv (s : Solver) : Prop :=
  LenOk s ∧ TrailWF s ∧ LevelChain s ∧ WatchInv s ∧ ReasonOk s

/-- A watcher-index-relevant step of the solver: attaching a fresh
two-or-more-literal clause whose literals are in range and whose handle is
not yet watched anywhere (exactly the situation of every `attach_clause`
call site after allocation), or any successful run of the propagator. -/
inductive WStep : Solver → Solver → Prop where
  | attach (s : Solver) (cr : CRef) (lrnt : Bool) (s' : Solver)
      (h1 : cr < s.store.length)
      (h2 : 2 ≤ (s.clauseOf cr).length)
      (h3 : ∀ l ∈ s.clauseOf cr,
        l.lidx < s.watchers.length ∧ l.not.lidx < s.watchers.length)
      (h4 : ∀ li < s.watchers.length, (s.watchers.getD li []).count cr = 0)
      (h5 : s.attach_clause cr lrnt = .ok s') : WStep s s'
  | prop (s : Solver) (fuel : Nat) (s' : Solver) (r : Option CRef)
      (h : s.propagate fuel = .ok (s', r)) : WStep s s'

/-- A trail-relevant step of the solver: a successful propagation; an
`enqueue` whose reason clause (if any) carries the enqueued literal at
position 0 and only `False` literals after it (exactly what `solve`
guarantees when asserting the literal of a learnt clause); a decision; or a
backjump. -/
inductive RStep : Solver → Solver → Prop where
  | prop (s : Solver) (fuel : Nat) (s' : Solver) (r : Option CRef)
      (h : s.propagate fuel = .ok (s', r)) : RStep s s'
  | assertLit (s : Solver) (lit : Lit) (reason : Option CRef) (s' : Solver)
      (hb : lit.vidx < s.assings.length)
      (hr : ∀ cr ∈ reason, cr < s.store.length ∧
        (s.clauseOf cr).head? = some lit ∧
        ∀ l' ∈ (s.clauseOf cr).drop 1, s.eval l' = LitBool.False)
      (h : s.enqueue lit reason = .ok s') : RStep s s'
  | decision (s : Solver) (lit : Lit) (s' : Solver)
      (hb : lit.vidx < s.assings.length)
      (h : s.new_decision lit none = .ok s') : RStep s s'
  | backjump (s : Solver) (b : Int) (s' : Solver)
      (h : s.pop_queue_until b = .ok s') : RStep s s'

instance watchOkDec (st : List Clause) (ws : List (List CRef)) (cr : CRef) :
    Decidable (WatchOk st ws cr) := by
  unfold WatchOk
  infer_instance

instance watchBDec (st : List Clause) (ws : List (List CRef))
    (cs : List CRef) : Decidable (WatchB st ws cs) := by
  unfold WatchB
  infer_instance

instance watchInvDec (s : Solver) : Decidable (WatchInv s) := by
  unfold WatchInv
  infer_instance

/-- Executable adjacent-pairs check, used to give `List.Chain'` a
`Decidable` instance that evaluates. -/
def chainB {α : Type _} (R : α → α → Bool) : List α → Bool
  | [] => true
  | [_] => true
  | a :: b :: rest => R a b && chainB R (b :: rest)

instance (priority := 2000) chainDec {α : Type _} (R : α → α → Prop)
    [DecidableRel R] (l : List α) : Decidable (List.Chain' R l) :=
  decidable_of_iff (chainB (fun a b => decide (R a b)) l = true) (by
    induction l with
    | nil => simp [chainB]
    | cons a rest ih =>
      cases rest with
      | nil => simp [chainB]
      | cons b rest2 =>
        rw [List.chain'_cons, ← ih]
        simp [chainB, Bool.and_eq_true, decide_eq_true_iff, and_comm])

/-! ## Concrete states used in witnesses -/

/-- A reachable state of a two-variable solver: trail `[x0@0, x1@1]`
(enqueue `x0` at level 0, then decide `x1`), no clauses. -/
def cPop : Solver where
  assings := [true, true]
  clauses := []
  learnts := []
  watchers := [[], [], [], []]
  reasons := [none, none]
  levels := [some 0, some 1]
  que := [mkLit 0 true, mkLit 1 true]
  que_head := 2
  store := []

/-- A reachable state of a two-variable solver: trail `[x0@0]`. -/
def cDec : Solver where
  assings := [true, false]
  clauses := []
  learnts := []
  watchers := [[], [], [], []]
  reasons := [none, none]
  levels := [some 0, none]
  que := [mkLit 0 true]
  que_head := 1
  store := []

/-- A two-variable solver state in conflict: the decision `x0` at level 1
propagated `x1` with reason clause 1 = `{x1, !x0}`, and clause 0 =
`{!x0, !x1}` is conflicting (all literals `False`). -/
def cAn : Solver where
  assings := [true, true]
  clauses := []
  learnts := []
  watchers := [[], [], [], []]
  reasons := [none, some 1]
  levels := [some 1, some 1]
  que := [mkLit 0 true, mkLit 1 true]
  que_head := 2
  store := [[mkLit 0 false, mkLit 1 false], [mkLit 1 true, mkLit 0 false]]

/-- A two-variable solver about to propagate `x0` over the attached clause
0 = `{x1, !x0}` (watched by `¬x1` and `x0`): unit propagation will enqueue
`x1` with reason 0. -/
def cProp : Solver where
  assings := [true, false]
  clauses := [0]
  learnts := []
  watchers := [[0], [], [], [0]]
  reasons := [none, none]
  levels := [some 0, none]
  que := [mkLit 0 true]
  que_head := 0
  store := [[mkLit 1 true, mkLit 0 false]]

/-- `cProp` after `propagate 5`: clause 0 = `{x1, ¬x0}` forced `x1` with
reason 0, and the cursor reached the trail end. -/
def cPropAfter : Solver where
  assings := [true, true]
  clauses := [0]
  learnts := []
  watchers := [[0], [], [], [0]]
  reasons := [none, some 0]
  levels := [some 0, some 0]
  que := [mkLit 0 true, mkLit 1 true]
  que_head := 2
  store := [[mkLit 1 true, mkLit 0 false]]

/-- A two-variable solver with one allocated but not yet attached clause
0 = `{x0, x1}`. -/
def cWatch : Solver where
  assings := [false, false]
  clauses := []
  learnts := []
  watchers := [[], [], [], []]
  reasons := [none, none]
  levels := [none, none]
  que := []
  que_head := 0
  store := [[mkLit 0 true, mkLit 1 true]]

/-- `cWatch` after attaching clause 0: it is watched by `¬x0` (literal
index 1) and `¬x1` (literal index 3). -/
def cWatchAttached : Solver where
  assings := [false, false]
  clauses := [0]
  learnts := []
  watchers := [[], [0], [], [0]]
  reasons := [none, none]
  levels := [none, none]
  que := []
  que_head := 0
  store := [[mkLit 0 true, mkLit 1 true]]

/-! ## Theorems -/

/-! ### Basic literal lemmas -/

theorem xor_one_eq (x : Nat) : x ^^^ 1 = if x % 2 = 0 then x + 1 else x - 1 := by
  apply Nat.eq_of_testBit_eq
  intro i
  rcases Nat.mod_two_eq_zero_or_one x with hx | hx
  · rw [if_pos hx]
    cases i with
    | zero =>
      rw [Nat.testBit_xor]
      have h1 : (x + 1) % 2 = 1 := by omega
      simp [Nat.testBit_zero, hx, h1]
    | succ i =>
      rw [Nat.testBit_xor, Nat.testBit_succ, Nat.testBit_succ, Nat.testBit_succ]
      have h2 : (1 : Nat) / 2 = 0 := by norm_num
      have h3 : (x + 1) / 2 = x / 2 := by omega
      rw [h2, h3]
      simp
  · rw [if_neg (by omega)]
    cases i with
    | zero =>
      rw [Nat.testBit_xor]
      have h1 : (x - 1) % 2 = 0 := by omega
      simp [Nat.testBit_zero, hx, h1]
    | succ i =>
      rw [Nat.testBit_xor, Nat.testBit_succ, Nat.testBit_succ, Nat.testBit_succ]
      have h2 : (1 : Nat) / 2 = 0 := by norm_num
      have h3 : (x - 1) / 2 = x / 2 := by omega
      rw [h2, h3]
      simp

theorem Lit.not_x (l : Lit) : l.not.x = if l.x % 2 = 0 then l.x + 1 else l.x - 1 :=
  xor_one_eq l.x

theorem Lit.not_not (l : Lit) : l.not.not = l := by
  cases l with
  | mk x => simp [Lit.not, Nat.xor_assoc]

theorem Lit.vidx_not (l : Lit) : l.not.vidx = l.vidx := by
  have h := Lit.not_x l
  simp only [Lit.vidx, Lit.var]
  rw [h]
  rcases Nat.mod_two_eq_zero_or_one l.x with hx | hx
  · rw [if_pos hx]; omega
  · rw [if_neg (by omega)]; omega

theorem Lit.neg_not (l : Lit) : l.not.neg = !l.neg := by
  simp only [Lit.neg]
  rw [Lit.not_x]
  rcases Nat.mod_two_eq_zero_or_one l.x with hx | hx
  · rw [if_pos hx]
    have h1 : (l.x + 1) % 2 = 1 := by omega
    simp [hx, h1]
  · rw [if_neg (by omega)]
    have h1 : (l.x - 1) % 2 = 0 := by omega
    simp [hx, h1]

theorem Lit.pos_not (l : Lit) : l.not.pos = !l.pos := by
  simp [Lit.pos, Lit.neg_not]

theorem Lit.not_ne (l : Lit) : l.not ≠ l := by
  intro h
  have hx : l.not.x = l.x := congrArg Lit.x h
  rw [Lit.not_x] at hx
  rcases Nat.mod_two_eq_zero_or_one l.x with h2 | h2
  · rw [if_pos h2] at hx; omega
  · rw [if_neg (by omega)] at hx; omega

theorem Lit.eq_of_vidx_pos (a b : Lit) (h1 : a.vidx = b.vidx) (h2 : a.pos = b.pos) :
    a = b := by
  have ha := Nat.mod_two_eq_zero_or_one a.x
  have hb := Nat.mod_two_eq_zero_or_one b.x
  simp only [Lit.vidx, Lit.var] at h1
  simp only [Lit.pos, Lit.neg] at h2
  cases a with
  | mk xa =>
    cases b with
    | mk xb =>
      simp only at h1 h2 ha hb ⊢
      congr 1
      rcases ha with ha | ha <;> rcases hb with hb | hb <;>
        simp [ha, hb] at h2 ⊢ <;> omega

theorem Solver.eval_not (s : Solver) (l : Lit) :
    s.eval l.not = (match s.eval l with
      | LitBool.True => LitBool.False
      | LitBool.False => LitBool.True
      | LitBool.Undefine => LitBool.Undefine) := by
  simp only [Solver.eval, Lit.vidx_not, Lit.neg_not]
  cases (s.levels.getD l.vidx none).isSome <;>
    cases hn : l.neg <;>
    cases s.assings.getD l.vidx false <;> simp

/-! ### List access lemmas -/

theorem getD_set_self {α} (l : List α) (i : Nat) (a d : α) (h : i < l.length) :
    (l.set i a).getD i d = a := by
  simp [List.getD_eq_getElem?_getD, List.getElem?_set, h]

theorem getD_set_ne {α} (l : List α) (i j : Nat) (a d : α) (h : i ≠ j) :
    (l.set i a).getD j d = l.getD j d := by
  simp [List.getD_eq_getElem?_getD, List.getElem?_set_ne h]

theorem getD_oob {α} (l : List α) (n : Nat) (d : α) (h : l.length ≤ n) :
    l.getD n d = d := by
  simp [List.getD_eq_getElem?_getD, List.getElem?_eq_none h]

theorem getD_append_left {α} (l1 l2 : List α) (n : Nat) (d : α) (h : n < l1.length) :
    (l1 ++ l2).getD n d = l1.getD n d := by
  simp [List.getD_eq_getElem?_getD, List.getElem?_append, h]

theorem getD_concat_length {α} (l : List α) (a d : α) :
    (l ++ [a]).getD l.length d = a := by
  simp [List.getD_eq_getElem?_getD, List.getElem?_concat_length]

theorem getD_mem {α} (l : List α) (n : Nat) (d : α) (h : n < l.length) :
    l.getD n d ∈ l := by
  rw [List.getD_eq_getElem?_getD, List.getElem?_eq_getElem h]
  exact List.getElem_mem h

theorem set_none_of_getD_none {β} (l : List (Option β)) (i : Nat)
    (h : l.getD i none = none) : l.set i none = l := by
  apply List.ext_getElem?
  intro n
  rw [List.getElem?_set]
  by_cases hin : i = n
  · subst hin
    by_cases hlen : i < l.length
    · rw [if_pos rfl, if_pos hlen]
      rw [List.getD_eq_getElem?_getD, List.getElem?_eq_getElem hlen] at h
      simp only [Option.getD_some] at h
      rw [List.getElem?_eq_getElem hlen, h]
    · rw [if_pos rfl, if_neg hlen]
      rw [List.getElem?_eq_none (by omega)]
  · rw [if_neg hin]

/-! ### The pop loop of `pop_queue_until` -/

/-- Full characterization of the pop loop on the reversed trail.  With
pairwise-distinct trail variables and the property that once an entry
survives the level test all deeper entries do too (levels are monotone on
the trail), the loop drops exactly the entries whose stored level exceeds
`b`, clears level and reason of exactly the dropped variables, and leaves
every other slot untouched. -/
theorem popRev_spec (b : Int) (q : List Lit) :
    ∀ (lv : List (Option Int)) (rs : List (Option CRef)),
    (q.map Lit.vidx).Nodup →
    List.Pairwise (fun x y =>
      optGtB (lv.getD x.vidx none) b = false →
      optGtB (lv.getD y.vidx none) b = false) q →
    (popRev b lv rs q).2.2 = q.filter (fun l => !optGtB (lv.getD l.vidx none) b) ∧
    (popRev b lv rs q).1.length = lv.length ∧
    (popRev b lv rs q).2.1.length = rs.length ∧
    (∀ l ∈ q, optGtB (lv.getD l.vidx none) b = true →
      (popRev b lv rs q).1.getD l.vidx none = none ∧
      (popRev b lv rs q).2.1.getD l.vidx none = none) ∧
    (∀ v : Nat, (∀ l ∈ q, l.vidx = v → optGtB (lv.getD l.vidx none) b = false) →
      (popRev b lv rs q).1.getD v none = lv.getD v none ∧
      (popRev b lv rs q).2.1.getD v none = rs.getD v none) ∧
    (∀ v : Nat, (popRev b lv rs q).1.getD v none = none ∨
      (popRev b lv rs q).1.getD v none = lv.getD v none) := by
  induction q with
  | nil =>
    intro lv rs _ _
    simp [popRev]
  | cons l rest ih =>
    intro lv rs hnd hpw
    have hnd1 : l.vidx ∉ rest.map Lit.vidx := (List.nodup_cons.mp hnd).1
    have hndr : (rest.map Lit.vidx).Nodup := (List.nodup_cons.mp hnd).2
    have hne : ∀ l' ∈ rest, l.vidx ≠ l'.vidx := by
      intro l' hl' he
      exact hnd1 (he ▸ List.mem_map_of_mem Lit.vidx hl')
    by_cases hgt : optGtB (lv.getD l.vidx none) b = true
    · have hrw : popRev b lv rs (l :: rest)
          = popRev b (lv.set l.vidx none) (rs.set l.vidx none) rest := by
        simp only [popRev]
        rw [hgt]
        simp
      have hval : ∀ l' ∈ rest,
          (lv.set l.vidx none).getD l'.vidx none = lv.getD l'.vidx none := by
        intro l' hl'
        exact getD_set_ne _ _ _ _ _ (hne l' hl')
      have hpw1 : List.Pairwise (fun x y =>
          optGtB ((lv.set l.vidx none).getD x.vidx none) b = false →
          optGtB ((lv.set l.vidx none).getD y.vidx none) b = false) rest := by
        have := (List.pairwise_cons.mp hpw).2
        refine List.Pairwise.imp_of_mem ?_ this
        intro a c ha hc h hfa
        rw [hval a ha] at hfa
        rw [hval c hc]
        exact h hfa
      obtain ⟨hq, hlen1, hlen2, hclear, hkeep, hnonecase⟩ :=
        ih (lv.set l.vidx none) (rs.set l.vidx none) hndr hpw1
      have hinb : l.vidx < lv.length := by
        by_contra hc
        rw [getD_oob lv l.vidx none (by omega)] at hgt
        simp [optGtB] at hgt
      refine ⟨?_, ?_, ?_, ?_, ?_, ?_⟩
      · rw [hrw, hq, List.filter_cons]
        simp only [hgt, Bool.not_true, Bool.false_eq_true, if_neg, ite_false]
        exact List.filter_congr (fun x hx => by rw [hval x hx])
      · rw [hrw, hlen1, List.length_set]
      · rw [hrw, hlen2, List.length_set]
      · intro l' hl' hl'gt
        rcases List.mem_cons.mp hl' with h | h
        · subst h
          have hnot : ∀ l'' ∈ rest, l''.vidx = l'.vidx →
              optGtB ((lv.set l'.vidx none).getD l''.vidx none) b = false := by
            intro l'' hl'' he
            exact absurd he.symm (hne l'' hl'')
          obtain ⟨ha, hb⟩ := hkeep l'.vidx hnot
          rw [hrw]
          constructor
          · rw [ha, getD_set_self _ _ _ _ hinb]
          · rw [hb]
            by_cases hrb : l'.vidx < rs.length
            · rw [getD_set_self _ _ _ _ hrb]
            · rw [List.set_eq_of_length_le (by omega), getD_oob _ _ _ (by omega)]
        · have := hclear l' h (by rw [hval l' h]; exact hl'gt)
          rw [hrw]
          exact this
      · intro v hv
        have hlv : l.vidx ≠ v := by
          intro he
          have := hv l (List.mem_cons_self l rest) he
          rw [this] at hgt
          exact Bool.false_ne_true hgt
        have hv1 : ∀ l' ∈ rest, l'.vidx = v →
            optGtB ((lv.set l.vidx none).getD l'.vidx none) b = false := by
          intro l' hl' he
          rw [hval l' hl']
          exact hv l' (List.mem_cons_of_mem l hl') he
        obtain ⟨ha, hb⟩ := hkeep v hv1
        rw [hrw]
        constructor
        · rw [ha, getD_set_ne _ _ _ _ _ hlv]
        · rw [hb, getD_set_ne _ _ _ _ _ hlv]
      · intro v
        rw [hrw]
        rcases hnonecase v with h | h
        · exact Or.inl h
        · by_cases hlv : l.vidx = v
          · subst hlv
            rw [h, getD_set_self _ _ _ _ hinb]
            exact Or.inl rfl
          · rw [h, getD_set_ne _ _ _ _ _ hlv]
            exact Or.inr rfl
    · have hgt' : optGtB (lv.getD l.vidx none) b = false := by
        revert hgt
        cases optGtB (lv.getD l.vidx none) b <;> simp
      have hrw : popRev b lv rs (l :: rest) = (lv, rs, l :: rest) := by
        simp only [popRev]
        rw [hgt']
        simp
      have hall : ∀ l' ∈ l :: rest, optGtB (lv.getD l'.vidx none) b = false := by
        intro l' hl'
        rcases List.mem_cons.mp hl' with h | h
        · subst h; exact hgt'
        · exact (List.pairwise_cons.mp hpw).1 l' h hgt'
      refine ⟨?_, ?_, ?_, ?_, ?_, ?_⟩
      · rw [hrw]
        have : ∀ l' ∈ l :: rest,
            (!optGtB (lv.getD l'.vidx none) b) = true := by
          intro l' hl'
          rw [hall l' hl']
          rfl
        exact (List.filter_eq_self.mpr this).symm
      · rw [hrw]
      · rw [hrw]
      · intro l' hl' hl'gt
        rw [hall l' hl'] at hl'gt
        exact absurd hl'gt Bool.false_ne_true
      · intro v _
        rw [hrw]
        exact ⟨rfl, rfl⟩
      · intro v
        rw [hrw]
        exact Or.inr rfl

/-- Levels on the trail translate the reversed-trail level test: if a later
trail entry is at or below `b`, so is every earlier one (levels are
non-decreasing along the trail). -/
theorem pairwise_rev_test (s : Solver) (b : Int)
    (hsome : ∀ l ∈ s.que, (s.levels.getD l.vidx none).isSome)
    (hch : List.Chain' (fun a c => a ≤ c ∧ c ≤ a + 1) (s.que.map (levAt s))) :
    List.Pairwise (fun x y =>
      optGtB (s.levels.getD x.vidx none) b = false →
      optGtB (s.levels.getD y.vidx none) b = false) s.que.reverse := by
  have h1 : List.Chain' (fun a c => a ≤ c) (s.que.map (levAt s)) :=
    List.Chain'.imp (fun a c h => h.1) hch
  have h2 : List.Pairwise (fun a c => a ≤ c) (s.que.map (levAt s)) :=
    List.chain'_iff_pairwise.mp h1
  have h3 : List.Pairwise (fun x y => levAt s x ≤ levAt s y) s.que :=
    List.pairwise_map.mp h2
  have h4 : List.Pairwise (fun x y => levAt s y ≤ levAt s x) s.que.reverse :=
    List.pairwise_reverse.mpr h3
  refine List.Pairwise.imp_of_mem ?_ h4
  intro x y hx hy hle hfx
  have hx1 : x ∈ s.que := List.mem_reverse.mp hx
  have hy1 : y ∈ s.que := List.mem_reverse.mp hy
  obtain ⟨vx, hvx⟩ := Option.isSome_iff_exists.mp (hsome x hx1)
  obtain ⟨vy, hvy⟩ := Option.isSome_iff_exists.mp (hsome y hy1)
  have hlx : levAt s x = vx := by
    simp only [levAt, levOf]
    rw [hvx]
    rfl
  have hly : levAt s y = vy := by
    simp only [levAt, levOf]
    rw [hvy]
    rfl
  rw [hlx, hly] at hle
  rw [hvx] at hfx
  rw [hvy]
  simp only [optGtB] at hfx ⊢
  simp only [decide_eq_false_iff_not] at hfx ⊢
  omega

/-- Full characterization of the state after the pop loop of
`pop_queue_until`, under the trail invariants of reachable states: exactly
the entries above level `b` are removed from the trail, exactly their
variables get level and reason cleared, and nothing else changes. -/
theorem popLoop_spec (s : Solver) (b : Int)
    (hnd : (s.que.map Lit.vidx).Nodup)
    (hsome : ∀ l ∈ s.que, (s.levels.getD l.vidx none).isSome)
    (hch : List.Chain' (fun a c => a ≤ c ∧ c ≤ a + 1) (s.que.map (levAt s))) :
    (popLoop s b).que
      = s.que.filter (fun l => !optGtB (s.levels.getD l.vidx none) b) ∧
    (popLoop s b).levels.length = s.levels.length ∧
    (popLoop s b).reasons.length = s.reasons.length ∧
    (∀ l ∈ s.que, optGtB (s.levels.getD l.vidx none) b = true →
      (popLoop s b).levels.getD l.vidx none = none ∧
      (popLoop s b).reasons.getD l.vidx none = none) ∧
    (∀ v : Nat,
      (∀ l ∈ s.que, l.vidx = v → optGtB (s.levels.getD l.vidx none) b = false) →
      (popLoop s b).levels.getD v none = s.levels.getD v none ∧
      (popLoop s b).reasons.getD v none = s.reasons.getD v none) ∧
    (∀ v : Nat, (popLoop s b).levels.getD v none = none ∨
      (popLoop s b).levels.getD v none = s.levels.getD v none) ∧
    (popLoop s b).assings = s.assings ∧
    (popLoop s b).watchers = s.watchers ∧
    (popLoop s b).clauses = s.clauses ∧
    (popLoop s b).learnts = s.learnts ∧
    (popLoop s b).store = s.store ∧
    (popLoop s b).que_head = s.que_head := by
  have hndr : (s.que.reverse.map Lit.vidx).Nodup := by
    rw [List.map_reverse]
    exact List.nodup_reverse.mpr hnd
  have hpw := pairwise_rev_test s b hsome hch
  obtain ⟨hq, hlen1, hlen2, hclear, hkeep, hnone⟩ :=
    popRev_spec b s.que.reverse s.levels s.reasons hndr hpw
  have hpl : popLoop s b =
      { s with
        levels := (popRev b s.levels s.reasons s.que.reverse).1
        reasons := (popRev b s.levels s.reasons s.que.reverse).2.1
        que := (popRev b s.levels s.reasons s.que.reverse).2.2.reverse } := by
    unfold popLoop
    rcases popRev b s.levels s.reasons s.que.reverse with ⟨lv, rs, qr⟩
    rfl
  rw [hpl]
  refine ⟨?_, hlen1, hlen2, ?_, ?_, hnone, rfl, rfl, rfl, rfl, rfl, rfl⟩
  · rw [hq, List.filter_reverse, List.reverse_reverse]
  · intro l hl hgt
    exact hclear l (List.mem_reverse.mpr hl) hgt
  · intro v hv
    refine hkeep v ?_
    intro l hl he
    exact hv l (List.mem_reverse.mp hl) he

/-- Whatever the pop loop leaves on the (reversed) trail was there before. -/
theorem popRev_mem (b : Int) (q : List Lit) :
    ∀ (lv : List (Option Int)) (rs : List (Option CRef)),
    ∀ x ∈ (popRev b lv rs q).2.2, x ∈ q := by
  induction q with
  | nil =>
    intro lv rs x hx
    simp [popRev] at hx
  | cons l rest ih =>
    intro lv rs x hx
    by_cases hgt : optGtB (lv.getD l.vidx none) b = true
    · have hrw : popRev b lv rs (l :: rest)
          = popRev b (lv.set l.vidx none) (rs.set l.vidx none) rest := by
        simp only [popRev]
        rw [hgt]
        simp
      rw [hrw] at hx
      exact List.mem_cons_of_mem l (ih _ _ x hx)
    · have hgt2 : optGtB (lv.getD l.vidx none) b = false := by
        revert hgt
        cases optGtB (lv.getD l.vidx none) b <;> simp
      have hrw : popRev b lv rs (l :: rest) = (lv, rs, l :: rest) := by
        simp only [popRev]
        rw [hgt2]
        simp
      rw [hrw] at hx
      exact hx

/-- On a reversed trail whose head (the trail top) is above `b`, whose
levels decrease by at most one per step going down, and whose deepest entry
is at level 0 or 1, the pop loop stops exactly at level `b`: if everything
was popped then `b = 0`, and otherwise the first remaining entry is stored
at level exactly `b`. -/
theorem popRev_last_level (b : Int) :
    ∀ (rest : List Lit) (l : Lit) (lv : List (Option Int)) (rs : List (Option CRef)),
    ((l :: rest).map Lit.vidx).Nodup →
    (∀ x ∈ l :: rest, (lv.getD x.vidx none).isSome) →
    List.Chain' (fun a c => c ≤ a ∧ a ≤ c + 1)
      ((l :: rest).map (fun x => (lv.getD x.vidx none).getD 0)) →
    0 ≤ b →
    optGtB (lv.getD l.vidx none) b = true →
    (∀ ll ∈ (l :: rest).getLast?, (lv.getD ll.vidx none).getD 0 ≤ 1) →
    ((popRev b lv rs (l :: rest)).2.2 = [] → b = 0) ∧
    (∀ l2 ∈ (popRev b lv rs (l :: rest)).2.2.take 1,
      lv.getD l2.vidx none = some b) := by
  intro rest
  induction rest with
  | nil =>
    intro l lv rs _ hsome _ hb htest hlast
    have hrw : popRev b lv rs [l]
        = (lv.set l.vidx none, rs.set l.vidx none, []) := by
      simp only [popRev]
      rw [htest]
      simp [popRev]
    rw [hrw]
    constructor
    · intro _
      obtain ⟨w, hw⟩ := Option.isSome_iff_exists.mp (hsome l (List.mem_cons_self l []))
      have h1 := hlast l (by simp)
      rw [hw] at h1 htest
      simp only [Option.getD_some] at h1
      simp only [optGtB, decide_eq_true_eq] at htest
      omega
    · intro l2 hl2
      simp at hl2
  | cons l2 rest2 ih =>
    intro l lv rs hnd hsome hch hb htest hlast
    have hndl : l.vidx ∉ (l2 :: rest2).map Lit.vidx := (List.nodup_cons.mp hnd).1
    have hne : ∀ x ∈ l2 :: rest2, l.vidx ≠ x.vidx := by
      intro x hx he
      exact hndl (he ▸ List.mem_map_of_mem Lit.vidx hx)
    have hval : ∀ x ∈ l2 :: rest2,
        (lv.set l.vidx none).getD x.vidx none = lv.getD x.vidx none := by
      intro x hx
      exact getD_set_ne _ _ _ _ _ (hne x hx)
    have hrw : popRev b lv rs (l :: l2 :: rest2)
        = popRev b (lv.set l.vidx none) (rs.set l.vidx none) (l2 :: rest2) := by
      simp only [popRev]
      rw [htest]
      simp
    rw [hrw]
    obtain ⟨w, hw⟩ :=
      Option.isSome_iff_exists.mp (hsome l (List.mem_cons_self l (l2 :: rest2)))
    obtain ⟨w2, hw2⟩ := Option.isSome_iff_exists.mp
      (hsome l2 (List.mem_cons_of_mem l (List.mem_cons_self l2 rest2)))
    have hadj : (lv.getD l2.vidx none).getD 0 ≤ (lv.getD l.vidx none).getD 0 ∧
        (lv.getD l.vidx none).getD 0 ≤ (lv.getD l2.vidx none).getD 0 + 1 := by
      have := List.chain'_cons.mp hch
      exact this.1
    by_cases htest2 : optGtB (lv.getD l2.vidx none) b = true
    · have htest2s : optGtB ((lv.set l.vidx none).getD l2.vidx none) b = true := by
        rw [hval l2 (List.mem_cons_self l2 rest2)]
        exact htest2
      have hchmap : (l2 :: rest2).map
            (fun x => ((lv.set l.vidx none).getD x.vidx none).getD 0)
          = (l2 :: rest2).map (fun x => (lv.getD x.vidx none).getD 0) := by
        apply List.map_congr_left
        intro x hx
        rw [hval x hx]
      have hch2 : List.Chain' (fun a c => c ≤ a ∧ a ≤ c + 1)
          ((l2 :: rest2).map
            (fun x => ((lv.set l.vidx none).getD x.vidx none).getD 0)) := by
        rw [hchmap]
        have := (List.chain'_cons.mp hch).2
        exact this
      have hlast2 : ∀ ll ∈ (l2 :: rest2).getLast?,
          ((lv.set l.vidx none).getD ll.vidx none).getD 0 ≤ 1 := by
        intro ll hll
        have hmem : ll ∈ l2 :: rest2 := by
          cases hgl : (l2 :: rest2).getLast? with
          | none => rw [hgl] at hll; simp at hll
          | some a =>
            rw [hgl] at hll
            simp at hll
            subst hll
            exact List.mem_of_mem_getLast? hgl
        rw [hval ll hmem]
        refine hlast ll ?_
        rw [List.getLast?_cons_cons]
        exact hll
      obtain ⟨c1, c2⟩ := ih l2 (lv.set l.vidx none) (rs.set l.vidx none)
        (List.nodup_cons.mp hnd).2
        (fun x hx => by rw [hval x hx]; exact hsome x (List.mem_cons_of_mem l hx))
        hch2 hb htest2s hlast2
      refine ⟨c1, ?_⟩
      intro l3 hl3
      have hl3mem : l3 ∈ (popRev b (lv.set l.vidx none) (rs.set l.vidx none)
          (l2 :: rest2)).2.2 := List.mem_of_mem_take hl3
      have hl3orig : l3 ∈ l2 :: rest2 := popRev_mem b (l2 :: rest2) _ _ l3 hl3mem
      have := c2 l3 hl3
      rw [hval l3 hl3orig] at this
      exact this
    · have htest2f : optGtB (lv.getD l2.vidx none) b = false := by
        revert htest2
        cases optGtB (lv.getD l2.vidx none) b <;> simp
      have htest2s : optGtB ((lv.set l.vidx none).getD l2.vidx none) b = false := by
        rw [hval l2 (List.mem_cons_self l2 rest2)]
        exact htest2f
      have hrw2 : popRev b (lv.set l.vidx none) (rs.set l.vidx none) (l2 :: rest2)
          = (lv.set l.vidx none, rs.set l.vidx none, l2 :: rest2) := by
        simp only [popRev]
        rw [htest2s]
        simp
      rw [hrw2]
      constructor
      · intro hco
        simp at hco
      · intro l3 hl3
        simp only [List.take_succ_cons, List.take_zero, List.mem_singleton] at hl3
        subst hl3
        rw [hw2]
        rw [hw, hw2] at hadj
        simp only [Option.getD_some] at hadj
        rw [hw] at htest
        rw [hw2] at htest2f
        simp only [optGtB, decide_eq_true_eq] at htest
        simp only [optGtB, decide_eq_false_iff_not] at htest2f
        have : w2 = b := by omega
        rw [this]

/-- `enqueue` on an unassigned variable succeeds and performs exactly the
four updates of the source. -/
theorem enqueue_ok (s : Solver) (lit : Lit) (reason : Option CRef)
    (h : s.levels.getD lit.vidx none = none) :
    s.enqueue lit reason = .ok
      { s with
        levels := s.levels.set lit.vidx (some s.decision_level)
        assings := s.assings.set lit.vidx lit.pos
        reasons := s.reasons.set lit.vidx reason
        que := s.que ++ [lit] } := by
  unfold Solver.enqueue
  rw [h]
  rfl

/-- `new_decision` on an in-range unassigned variable succeeds: it enqueues
and stores the incremented decision level. -/
theorem new_decision_ok (s : Solver) (lit : Lit)
    (h : s.levels.getD lit.vidx none = none) (hv : lit.vidx < s.levels.length) :
    s.new_decision lit none = .ok
      { s with
        levels := s.levels.set lit.vidx (some (s.decision_level + 1))
        assings := s.assings.set lit.vidx lit.pos
        reasons := s.reasons.set lit.vidx none
        que := s.que ++ [lit] } := by
  unfold Solver.new_decision
  rw [enqueue_ok s lit none h]
  show (match ({ s with
        levels := s.levels.set lit.vidx (some s.decision_level)
        assings := s.assings.set lit.vidx lit.pos
        reasons := s.reasons.set lit.vidx none
        que := s.que ++ [lit] } : Solver).levels.getD lit.vidx none with
    | none => (.error "bad optional access in new_decision" : Except String Solver)
    | some d => .ok { s with
        levels := (s.levels.set lit.vidx (some s.decision_level)).set lit.vidx (some (d + 1))
        assings := s.assings.set lit.vidx lit.pos
        reasons := s.reasons.set lit.vidx none
        que := s.que ++ [lit] }) = _
  have hg : ({ s with
        levels := s.levels.set lit.vidx (some s.decision_level)
        assings := s.assings.set lit.vidx lit.pos
        reasons := s.reasons.set lit.vidx none
        que := s.que ++ [lit] } : Solver).levels.getD lit.vidx none
      = some s.decision_level := getD_set_self _ _ _ _ hv
  rw [hg]
  show Except.ok { s with
      levels := (s.levels.set lit.vidx (some s.decision_level)).set lit.vidx
        (some (s.decision_level + 1))
      assings := s.assings.set lit.vidx lit.pos
      reasons := s.reasons.set lit.vidx none
      que := s.que ++ [lit] } = _
  rw [List.set_set]

/-- `pop_queue_until` on a non-empty trail succeeds, returning the
pop-loop state with the cursor reset to `size - 1` (or 0). -/
theorem pop_queue_until_ok (s : Solver) (b : Int) (hne : s.que ≠ []) :
    s.pop_queue_until b = .ok { popLoop s b with
      que_head := if 0 < (popLoop s b).que.length
        then (popLoop s b).que.length - 1 else 0 } := by
  unfold Solver.pop_queue_until
  rw [List.isEmpty_eq_false.mpr hne]
  rfl

/-- After a decision on a fresh variable, the pop loop back to the prior
decision level pops exactly that one entry and restores levels and reasons. -/
theorem popLoop_after_decision (s : Solver) (lit : Lit)
    (hv : lit.vidx < s.levels.length)
    (hnew : s.levels.getD lit.vidx none = none)
    (hrs : s.reasons.getD lit.vidx none = none)
    (hsome : ∀ l ∈ s.que, (s.levels.getD l.vidx none).isSome) :
    popLoop { s with
        levels := s.levels.set lit.vidx (some (s.decision_level + 1))
        assings := s.assings.set lit.vidx lit.pos
        reasons := s.reasons.set lit.vidx none
        que := s.que ++ [lit] } s.decision_level
      = { s with assings := s.assings.set lit.vidx lit.pos } := by
  have h1 : popRev s.decision_level
      (s.levels.set lit.vidx (some (s.decision_level + 1)))
      (s.reasons.set lit.vidx none) (lit :: s.que.reverse)
      = (s.levels, s.reasons, s.que.reverse) := by
    have htest : optGtB
        ((s.levels.set lit.vidx (some (s.decision_level + 1))).getD lit.vidx none)
        s.decision_level = true := by
      rw [getD_set_self _ _ _ _ hv]
      simp [optGtB]
    simp only [popRev]
    rw [htest]
    simp only [if_true, List.set_set]
    rw [set_none_of_getD_none s.levels lit.vidx hnew,
        set_none_of_getD_none s.reasons lit.vidx hrs]
    cases hq : s.que.reverse with
    | nil => simp [popRev]
    | cons l2 rest =>
      have hl2 : l2 ∈ s.que := by
        have : l2 ∈ s.que.reverse := by
          rw [hq]
          exact List.mem_cons_self l2 rest
        exact List.mem_reverse.mp this
      obtain ⟨w, hw⟩ := Option.isSome_iff_exists.mp (hsome l2 hl2)
      have hdl : s.decision_level = w := by
        unfold Solver.decision_level
        have hgl : s.que.getLast? = some l2 := by
          rw [← List.head?_reverse, hq]
          rfl
        rw [hgl]
        show (s.levels.getD l2.vidx none).getD 0 = w
        rw [hw]
        rfl
      have htest2 : optGtB (s.levels.getD l2.vidx none) s.decision_level
          = false := by
        rw [hw, hdl]
        simp [optGtB]
      simp only [popRev]
      rw [htest2]
      rfl
  unfold popLoop
  have hqr : ({ s with
        levels := s.levels.set lit.vidx (some (s.decision_level + 1))
        assings := s.assings.set lit.vidx lit.pos
        reasons := s.reasons.set lit.vidx none
        que := s.que ++ [lit] } : Solver).que.reverse = lit :: s.que.reverse := by
    show (s.que ++ [lit]).reverse = lit :: s.que.reverse
    simp
  rw [hqr, h1]
  show ({ s with
      levels := s.levels
      assings := s.assings.set lit.vidx lit.pos
      reasons := s.reasons
      que := s.que.reverse.reverse } : Solver) = _
  rw [List.reverse_reverse]

/-- Claim C4 (the amended statement): under the trail invariants of
reachable states, `undo_until(level)` pops exactly those trail entries whose
decision level exceeds the given level, clears each popped variable's level
and reason (so its observable truth value becomes `Undefine`), leaves the
kept entries' level and reason unchanged, and resets the propagation cursor
to the new trail length minus one (0 when the trail became empty) — not to
the new trail length, as the original claim states (see the
counterexample). -/
theorem pop_queue_until_amended_spec (s : Solver) (b : Int)
    (hne : s.que ≠ [])
    (hnd : (s.que.map Lit.vidx).Nodup)
    (hsome : ∀ l ∈ s.que, (s.levels.getD l.vidx none).isSome)
    (hch : List.Chain' (fun a c => a ≤ c ∧ c ≤ a + 1) (s.que.map (levAt s))) :
    s.pop_queue_until b = .ok { popLoop s b with
      que_head := if 0 < (popLoop s b).que.length
        then (popLoop s b).que.length - 1 else 0 } ∧
    (popLoop s b).que
      = s.que.filter (fun l => !optGtB (s.levels.getD l.vidx none) b) ∧
    (∀ l ∈ s.que, optGtB (s.levels.getD l.vidx none) b = true →
      (popLoop s b).levels.getD l.vidx none = none ∧
      (popLoop s b).reasons.getD l.vidx none = none ∧
      (popLoop s b).eval l = LitBool.Undefine) ∧
    (∀ l ∈ s.que, optGtB (s.levels.getD l.vidx none) b = false →
      (popLoop s b).levels.getD l.vidx none = s.levels.getD l.vidx none ∧
      (popLoop s b).reasons.getD l.vidx none = s.reasons.getD l.vidx none) ∧
    (popLoop s b).assings = s.assings := by
  obtain ⟨hq, hlen1, hlen2, hclear, hkeep, hnone, hass, _, _, _, _, _⟩ :=
    popLoop_spec s b hnd hsome hch
  refine ⟨pop_queue_until_ok s b hne, hq, ?_, ?_, hass⟩
  · intro l hl hgt
    obtain ⟨h1, h2⟩ := hclear l hl hgt
    refine ⟨h1, h2, ?_⟩
    unfold Solver.eval
    rw [h1]
    rfl
  · intro l hl hf
    refine hkeep l.vidx ?_
    intro l2 hl2 he
    have : l2 = l := List.inj_on_of_nodup_map hnd hl2 hl he
    rw [this]
    exact hf

/-- Witness for `pop_queue_until_amended_spec` at the concrete reachable
state `cPop` (trail `[x0@0, x1@1]`) and backjump level 0: exactly the
level-1 entry is removed. -/
theorem pop_queue_until_amended_spec_witness :
    (popLoop cPop 0).que
      = cPop.que.filter (fun l => !optGtB (cPop.levels.getD l.vidx none) 0) :=
  (pop_queue_until_amended_spec cPop 0
    (by decide) (by decide) (by decide) (by decide)).2.1

/-- Claim C6 (the amended statement): assigning one literal via a decision
(`new_decision`, on an in-range unassigned variable with no stale reason)
and then undoing to the prior decision level restores the trail and every
variable's stored level and reason byte-exactly — but not the whole state:
the decided variable's phase bit keeps the decided polarity, and the
propagation cursor is reset to the restored trail length minus one (0 for
the empty trail).  A literal assigned by plain `enqueue` is recorded at the
current decision level and is not popped at all (see the counterexample). -/
theorem decide_undo_amended (s : Solver) (lit : Lit)
    (hv : lit.vidx < s.levels.length)
    (hnew : s.levels.getD lit.vidx none = none)
    (hrs : s.reasons.getD lit.vidx none = none)
    (hsome : ∀ l ∈ s.que, (s.levels.getD l.vidx none).isSome) :
    (s.new_decision lit none >>= fun t => t.pop_queue_until s.decision_level)
      = .ok { s with
          assings := s.assings.set lit.vidx lit.pos
          que_head := if 0 < s.que.length then s.que.length - 1 else 0 } := by
  rw [new_decision_ok s lit hnew hv]
  show Solver.pop_queue_until { s with
      levels := s.levels.set lit.vidx (some (s.decision_level + 1))
      assings := s.assings.set lit.vidx lit.pos
      reasons := s.reasons.set lit.vidx none
      que := s.que ++ [lit] } s.decision_level = _
  rw [pop_queue_until_ok _ _ (by simp)]
  rw [popLoop_after_decision s lit hv hnew hrs hsome]

/-- Witness for `decide_undo_amended`: deciding `x1` from the reachable
state with trail `[x0@0]` and undoing to level 0 restores everything except
the phase bit of `x1` and the cursor. -/
theorem decide_undo_amended_witness :
    (cDec.new_decision (mkLit 1 true) none >>= fun t =>
        t.pop_queue_until cDec.decision_level)
      = .ok { cDec with
          assings := cDec.assings.set (mkLit 1 true).vidx (mkLit 1 true).pos
          que_head := if 0 < cDec.que.length then cDec.que.length - 1 else 0 } :=
  decide_undo_amended cDec (mkLit 1 true)
    (by decide) (by decide) (by decide) (by decide)

/-- Claim C7: after `undo_until(b)` from a reachable state whose decision
level exceeds `b` (with `b` a decision level, hence `0 ≤ b` — the spec's
data model defines decision levels as non-negative), `decision_level()`
returns exactly `b`, and every variable still assigned has level `≤ b`.
The hypotheses are the trail invariants of reachable states: distinct trail
variables, assigned trail entries, levels non-decreasing with steps of at
most one, first entry at level ≤ 1, and assigned variables on the trail. -/
theorem undo_until_level_spec (s : Solver) (b : Int)
    (hnd : (s.que.map Lit.vidx).Nodup)
    (hsome : ∀ l ∈ s.que, (s.levels.getD l.vidx none).isSome)
    (hch : List.Chain' (fun a c => a ≤ c ∧ c ≤ a + 1) (s.que.map (levAt s)))
    (hhead : ∀ l ∈ s.que.take 1, levAt s l ≤ 1)
    (hassigned : ∀ v < s.levels.length,
      (s.levels.getD v none).isSome → ∃ l ∈ s.que, l.vidx = v)
    (hb : 0 ≤ b)
    (hd : b < s.decision_level) :
    s.pop_queue_until b = .ok { popLoop s b with
      que_head := if 0 < (popLoop s b).que.length
        then (popLoop s b).que.length - 1 else 0 } ∧
    (popLoop s b).decision_level = b ∧
    ∀ (v : Nat) (x : Int), (popLoop s b).levels.getD v none = some x → x ≤ b := by
  have hne : s.que ≠ [] := by
    intro h
    have h0 : s.decision_level = 0 := by
      unfold Solver.decision_level
      rw [h]
      rfl
    rw [h0] at hd
    omega
  obtain ⟨hq, hlen1, hlen2, hclear, hkeep, hnone, hass, _, _, _, _, _⟩ :=
    popLoop_spec s b hnd hsome hch
  have hpl : popLoop s b =
      { s with
        levels := (popRev b s.levels s.reasons s.que.reverse).1
        reasons := (popRev b s.levels s.reasons s.que.reverse).2.1
        que := (popRev b s.levels s.reasons s.que.reverse).2.2.reverse } := by
    unfold popLoop
    rcases popRev b s.levels s.reasons s.que.reverse with ⟨lv, rs, qr⟩
    rfl
  cases hqr : s.que.reverse with
  | nil =>
    exact absurd (by simpa using congrArg List.reverse hqr) hne
  | cons l rest =>
    have hndr : ((l :: rest).map Lit.vidx).Nodup := by
      have h1 : (s.que.reverse.map Lit.vidx).Nodup := by
        rw [List.map_reverse]
        exact List.nodup_reverse.mpr hnd
      rw [hqr] at h1
      exact h1
    have hsomer : ∀ x ∈ l :: rest, (s.levels.getD x.vidx none).isSome := by
      intro x hx
      refine hsome x (List.mem_reverse.mp ?_)
      rw [hqr]
      exact hx
    have hchr : List.Chain' (fun a c => c ≤ a ∧ a ≤ c + 1)
        ((l :: rest).map (fun x => (s.levels.getD x.vidx none).getD 0)) := by
      have h1 : List.Chain' (fun a c => c ≤ a ∧ a ≤ c + 1)
          ((s.que.map (fun x => (s.levels.getD x.vidx none).getD 0)).reverse) := by
        rw [List.chain'_reverse]
        exact hch
      rw [← List.map_reverse, hqr] at h1
      exact h1
    have hgl : s.que.getLast? = some l := by
      rw [← List.head?_reverse, hqr]
      rfl
    have hlq : l ∈ s.que := by
      refine List.mem_reverse.mp ?_
      rw [hqr]
      exact List.mem_cons_self l rest
    obtain ⟨w, hw⟩ := Option.isSome_iff_exists.mp (hsome l hlq)
    have hdw : s.decision_level = w := by
      unfold Solver.decision_level
      rw [hgl]
      show (s.levels.getD l.vidx none).getD 0 = w
      rw [hw]
      rfl
    have htest : optGtB (s.levels.getD l.vidx none) b = true := by
      rw [hw]
      simp only [optGtB, decide_eq_true_eq]
      rw [hdw] at hd
      omega
    have hlastr : ∀ ll ∈ (l :: rest).getLast?,
        (s.levels.getD ll.vidx none).getD 0 ≤ 1 := by
      intro ll hll
      have hh : s.que.head? = some ll := by
        rw [← List.getLast?_reverse, hqr]
        exact hll
      cases hcq : s.que with
      | nil => exact absurd hcq hne
      | cons a t =>
        rw [hcq] at hh
        simp at hh
        subst hh
        have := hhead a (by rw [hcq]; simp)
        exact this
    obtain ⟨c1, c2⟩ := popRev_last_level b rest l s.levels s.reasons
      hndr hsomer hchr hb htest hlastr
    refine ⟨pop_queue_until_ok s b hne, ?_, ?_⟩
    · unfold Solver.decision_level
      have hque : (popLoop s b).que
          = (popRev b s.levels s.reasons s.que.reverse).2.2.reverse := by
        rw [hpl]
      rw [hque, List.getLast?_reverse, hqr]
      cases hrem : (popRev b s.levels s.reasons (l :: rest)).2.2 with
      | nil =>
        show (0 : Int) = b
        exact (c1 hrem).symm
      | cons l3 r3 =>
        show ((popLoop s b).levels.getD l3.vidx none).getD 0 = b
        have hl3t : l3 ∈ (popRev b s.levels s.reasons (l :: rest)).2.2.take 1 := by
          rw [hrem]
          simp
        have hc2 := c2 l3 hl3t
        have hl3q : l3 ∈ s.que := by
          refine List.mem_reverse.mp ?_
          rw [hqr]
          refine popRev_mem b (l :: rest) s.levels s.reasons l3 ?_
          rw [hrem]
          exact List.mem_cons_self l3 r3
        have hkt := hkeep l3.vidx (fun l4 hl4 he => by
          have h45 : l4 = l3 := List.inj_on_of_nodup_map hnd hl4 hl3q he
          rw [h45, hc2]
          simp [optGtB])
        rw [hkt.1, hc2]
        rfl
    · intro v x hvx
      rcases hnone v with h | h
      · rw [h] at hvx
        exact absurd hvx (by simp)
      · rw [h] at hvx
        have hvlen : v < s.levels.length := by
          by_contra hc
          rw [getD_oob _ _ _ (by omega)] at hvx
          exact absurd hvx (by simp)
        obtain ⟨l', hl', hv'⟩ := hassigned v hvlen (by rw [hvx]; rfl)
        by_cases ht : optGtB (s.levels.getD l'.vidx none) b = true
        · have hcl := (hclear l' hl' ht).1
          rw [hv'] at hcl
          rw [hcl] at h
          rw [← h] at hvx
          exact absurd hvx (by simp)
        · have htf : optGtB (s.levels.getD l'.vidx none) b = false := by
            revert ht
            cases optGtB (s.levels.getD l'.vidx none) b <;> simp
          rw [hv', hvx] at htf
          simp only [optGtB, decide_eq_false_iff_not] at htf
          omega

/-- Witness for `undo_until_level_spec` at the concrete reachable state
`cPop` (trail `[x0@0, x1@1]`, decision level 1) and backjump level 0. -/
theorem undo_until_level_spec_witness :
    (popLoop cPop 0).decision_level = 0 ∧
    ∀ (v : Nat) (x : Int), (popLoop cPop 0).levels.getD v none = some x → x ≤ 0 :=
  ⟨(undo_until_level_spec cPop 0 (by decide) (by decide) (by decide) (by decide)
      (by decide) (by decide) (by decide)).2.1,
   (undo_until_level_spec cPop 0 (by decide) (by decide) (by decide) (by decide)
      (by decide) (by decide) (by decide)).2.2⟩

/-! ### Swap lemmas -/

theorem length_swapIdx {α} (l : List α) (i j : Nat) (d : α) :
    (swapIdx l i j d).length = l.length := by
  simp [swapIdx]

theorem getElem?_swapIdx {α} (l : List α) (i j n : Nat) (d : α)
    (hi : i < l.length) (hj : j < l.length) :
    (swapIdx l i j d)[n]? =
      if n = j then some (l.getD i d)
      else if n = i then some (l.getD j d)
      else l[n]? := by
  unfold swapIdx
  rw [List.getElem?_set, List.getElem?_set]
  by_cases hnj : n = j
  · subst hnj
    rw [if_pos rfl, if_pos rfl, if_pos (by rw [List.length_set]; exact hj)]
  · rw [if_neg hnj, if_neg (fun he => hnj he.symm)]
    by_cases hni : n = i
    · subst hni
      rw [if_pos rfl, if_pos rfl, if_pos hi, List.getD_eq_getElem?_getD,
        List.getElem?_eq_getElem hj]
    · rw [if_neg hni, if_neg (fun he => hni he.symm)]

theorem head?_swap0Last {α} (l : List α) (d : α) (hl : l ≠ []) :
    (swapIdx l 0 (l.length - 1) d).head? = some (l.getD (l.length - 1) d) := by
  have hpos : 0 < l.length := List.length_pos.mpr hl
  rw [List.head?_eq_getElem?, getElem?_swapIdx l 0 (l.length - 1) 0 d hpos (by omega)]
  by_cases h0 : (0 : Nat) = l.length - 1
  · rw [if_pos h0, ← h0]
  · rw [if_neg h0, if_pos rfl]

theorem mem_drop_one_swap0Last {α} (l : List α) (d : α) (hl : l ≠ []) :
    ∀ x ∈ (swapIdx l 0 (l.length - 1) d).drop 1, x ∈ l.dropLast := by
  have hpos : 0 < l.length := List.length_pos.mpr hl
  intro x hx
  obtain ⟨n, hn⟩ := List.mem_iff_getElem?.mp hx
  rw [List.getElem?_drop] at hn
  rw [getElem?_swapIdx l 0 (l.length - 1) (1 + n) d hpos (by omega)] at hn
  by_cases h1 : 1 + n = l.length - 1
  · rw [if_pos h1] at hn
    have hx0 : x = l.getD 0 d := by
      injection hn with hh
      exact hh.symm
    have hlen2 : 2 ≤ l.length := by omega
    refine List.mem_iff_getElem?.mpr ⟨0, ?_⟩
    rw [List.getElem?_dropLast]
    rw [if_pos (by omega)]
    rw [hx0, List.getD_eq_getElem?_getD, List.getElem?_eq_getElem hpos]
    rfl
  · rw [if_neg h1, if_neg (by omega)] at hn
    have hlt : 1 + n < l.length := by
      by_contra hc
      rw [List.getElem?_eq_none (by omega)] at hn
      exact absurd hn (by simp)
    refine List.mem_iff_getElem?.mpr ⟨1 + n, ?_⟩
    rw [List.getElem?_dropLast, if_pos (by omega)]
    exact hn

/-! ### Analyze lemmas -/

theorem analyzeSeen_learnt (s : Solver) (d : Int) :
    ∀ (lits : List Lit) (acc : List Var × Int × Clause),
    (∀ l ∈ acc.2.2, ∀ x : Int, s.levels.getD l.vidx none = some x → x < d) →
    ∀ l ∈ (analyzeSeen s d lits acc).2.2, ∀ x : Int,
      s.levels.getD l.vidx none = some x → x < d := by
  intro lits
  induction lits with
  | nil =>
    intro acc hacc
    simpa [analyzeSeen] using hacc
  | cons c restl ih =>
    intro acc hacc
    obtain ⟨checking, counter, learnt⟩ := acc
    simp only [analyzeSeen]
    by_cases hmem : c.var ∈ checking
    · rw [if_pos hmem]
      exact ih _ hacc
    · rw [if_neg hmem]
      by_cases hlt : optLtB (s.levels.getD c.vidx none) d = true
      · rw [if_pos hlt]
        refine ih _ ?_
        intro l hl x hx
        rcases List.mem_append.mp hl with h | h
        · exact hacc l h x hx
        · rw [List.mem_singleton] at h
          subst h
          rw [hx] at hlt
          simpa [optLtB] using hlt
      · rw [if_neg hlt]
        exact ih _ hacc

theorem analyzeSeed_learnt (s : Solver) (d : Int) :
    ∀ (lits : List Lit) (acc r : List Var × Int × Clause),
    analyzeSeed s d lits acc = .ok r →
    (∀ l ∈ acc.2.2, ∀ x : Int, s.levels.getD l.vidx none = some x → x < d) →
    ∀ l ∈ r.2.2, ∀ x : Int, s.levels.getD l.vidx none = some x → x < d := by
  intro lits
  induction lits with
  | nil =>
    intro acc r h hacc
    simp only [analyzeSeed] at h
    injection h with h
    subst h
    exact hacc
  | cons c restl ih =>
    intro acc r h hacc
    obtain ⟨checking, counter, learnt⟩ := acc
    simp only [analyzeSeed] at h
    by_cases hev : s.eval c ≠ LitBool.False
    · rw [if_pos hev] at h
      exact absurd h (by simp)
    · rw [if_neg hev] at h
      by_cases hlt : optLtB (s.levels.getD c.vidx none) d = true
      · rw [if_pos hlt] at h
        refine ih _ r h ?_
        intro l hl x hx
        rcases List.mem_append.mp hl with h2 | h2
        · exact hacc l h2 x hx
        · rw [List.mem_singleton] at h2
          subst h2
          rw [hx] at hlt
          simpa [optLtB] using hlt
      · rw [if_neg hlt] at h
        exact ih _ r h hacc

theorem analyzeWalk_ok (s : Solver) (d : Int) :
    ∀ (i : Nat) (checking : List Var) (counter : Int) (learnt : Clause)
      (p : Nat) (learnt1 : Clause),
    analyzeWalk s d i checking counter learnt = .ok (p, learnt1) →
    i < s.que.length →
    (∀ l ∈ learnt, ∀ x : Int, s.levels.getD l.vidx none = some x → x < d) →
    p < s.que.length ∧
    (∀ l ∈ learnt1, ∀ x : Int, s.levels.getD l.vidx none = some x → x < d) := by
  intro i
  induction i with
  | zero =>
    intro checking counter learnt p learnt1 h hi hP
    rw [analyzeWalk] at h
    by_cases hmem : (s.que.getD 0 default).var ∈ checking
    · rw [if_pos hmem] at h
      by_cases hcnt : counter - 1 ≤ 0
      · rw [if_pos hcnt] at h
        injection h with h
        injection h with h1 h2
        subst h1
        subst h2
        exact ⟨hi, hP⟩
      · rw [if_neg hcnt] at h
        cases hr : s.reasons.getD (s.que.getD 0 default).vidx none with
        | none =>
          simp only [hr] at h
          exact absurd h (by simp)
        | some cr =>
          simp only [hr] at h
          cases hcl : s.clauseOf cr with
          | nil =>
            simp only [hcl] at h
            exact absurd h (by simp)
          | cons c0 ctail =>
            simp only [hcl] at h
            by_cases hc0 : c0 ≠ s.que.getD 0 default
            · rw [if_pos hc0] at h
              exact absurd h (by simp)
            · rw [if_neg hc0] at h
              exact absurd h (by simp)
    · rw [if_neg hmem] at h
      exact absurd h (by simp)
  | succ i2 ih =>
    intro checking counter learnt p learnt1 h hi hP
    rw [analyzeWalk] at h
    by_cases hmem : (s.que.getD (i2 + 1) default).var ∈ checking
    · rw [if_pos hmem] at h
      by_cases hcnt : counter - 1 ≤ 0
      · rw [if_pos hcnt] at h
        injection h with h
        injection h with h1 h2
        subst h1
        subst h2
        exact ⟨hi, hP⟩
      · rw [if_neg hcnt] at h
        cases hr : s.reasons.getD (s.que.getD (i2 + 1) default).vidx none with
        | none =>
          simp only [hr] at h
          exact absurd h (by simp)
        | some cr =>
          simp only [hr] at h
          cases hcl : s.clauseOf cr with
          | nil =>
            simp only [hcl] at h
            exact absurd h (by simp)
          | cons c0 ctail =>
            simp only [hcl] at h
            by_cases hc0 : c0 ≠ s.que.getD (i2 + 1) default
            · rw [if_pos hc0] at h
              exact absurd h (by simp)
            · rw [if_neg hc0] at h
              rcases hseen : analyzeSeen s d ctail
                  (insertVar (s.que.getD (i2 + 1) default).var checking,
                    counter - 1, learnt) with ⟨c2, n2, le2⟩
              simp only [hseen] at h
              refine ih _ _ _ p learnt1 h (by omega) ?_
              intro l hl x hx
              refine analyzeSeen_learnt s d ctail
                (insertVar (s.que.getD (i2 + 1) default).var checking,
                  counter - 1, learnt) hP l ?_ x hx
              rw [hseen]
              exact hl
    · rw [if_neg hmem] at h
      exact ih _ _ _ p learnt1 h (by omega) hP

theorem bjFold_ge (s : Solver) :
    ∀ (lits : List Lit) (acc b : Int), bjFold s acc lits = .ok b → acc ≤ b := by
  intro lits
  induction lits with
  | nil =>
    intro acc b h
    simp only [bjFold] at h
    injection h with h
    omega
  | cons c restl ih =>
    intro acc b h
    simp only [bjFold] at h
    cases hv : s.levels.getD c.vidx none with
    | none =>
      simp only [hv] at h
      exact absurd h (by simp)
    | some v =>
      simp only [hv] at h
      have h1 := ih _ _ h
      have h2 : acc ≤ max acc v := le_max_left _ _
      omega

theorem bjFold_lt (s : Solver) (d : Int) :
    ∀ (lits : List Lit) (acc b : Int), bjFold s acc lits = .ok b →
    (∀ l ∈ lits, ∀ x : Int, s.levels.getD l.vidx none = some x → x < d) →
    acc < d → b < d := by
  intro lits
  induction lits with
  | nil =>
    intro acc b h _ hacc
    simp only [bjFold] at h
    injection h with h
    omega
  | cons c restl ih =>
    intro acc b h hP hacc
    simp only [bjFold] at h
    cases hv : s.levels.getD c.vidx none with
    | none =>
      simp only [hv] at h
      exact absurd h (by simp)
    | some v =>
      simp only [hv] at h
      refine ih _ _ h (fun l hl => hP l (List.mem_cons_of_mem c hl)) ?_
      have hvd := hP c (List.mem_cons_self c restl) v hv
      simp only [max_lt_iff]
      omega

theorem bjFold_eq_fold (s : Solver) :
    ∀ (lits : List Lit) (acc b : Int), bjFold s acc lits = .ok b →
    b = lits.foldl (fun a l => max a ((s.levels.getD l.vidx none).getD 0)) acc := by
  intro lits
  induction lits with
  | nil =>
    intro acc b h
    simp only [bjFold] at h
    injection h with h
    rw [← h]
    rfl
  | cons c restl ih =>
    intro acc b h
    simp only [bjFold] at h
    cases hv : s.levels.getD c.vidx none with
    | none =>
      simp only [hv] at h
      exact absurd h (by simp)
    | some v =>
      simp only [hv] at h
      have h1 := ih _ _ h
      rw [h1, List.foldl_cons, hv]
      rfl

theorem bjFold_ub (s : Solver) :
    ∀ (lits : List Lit) (acc b : Int), bjFold s acc lits = .ok b →
    ∀ l ∈ lits, ∀ x : Int, s.levels.getD l.vidx none = some x → x ≤ b := by
  intro lits
  induction lits with
  | nil =>
    intro acc b _ l hl
    exact absurd hl (by simp)
  | cons c restl ih =>
    intro acc b h l hl x hx
    simp only [bjFold] at h
    cases hv : s.levels.getD c.vidx none with
    | none =>
      simp only [hv] at h
      exact absurd h (by simp)
    | some v =>
      simp only [hv] at h
      rcases List.mem_cons.mp hl with h2 | h2
      · subst h2
        rw [hv] at hx
        injection hx with hx
        have h3 := bjFold_ge s _ _ _ h
        have h4 : v ≤ max acc v := le_max_right _ _
        omega
      · exact ih _ _ h l h2 x hx

/-- Claim C5: whenever `analyze(K)` at decision level `d > 0` returns a
learnt clause `L` and backjump level `b` (so every internal assert held, in
particular every literal of `K` evaluated to `False`), then `L` is
non-empty, `L[0]` is the negation of the 1-UIP: the trail literal at
exactly the position where the backward walk's level-`d` counter reached
zero (the position returned by `Solver.uipPos`, the walk `analyze` itself
ran), `b` is the maximum stored decision level among the literals of `L`
excluding `L[0]` (0 if `L` is unit: the fold starts at 0 and every other
literal's level is an attained bound), and `0 ≤ b < d`. -/
theorem analyze_spec (s : Solver) (k : CRef) (L : Clause) (b : Int)
    (h : s.analyze k = .ok (L, b))
    (hd : 0 < s.decision_level) :
    L ≠ [] ∧
    (∃ p learnt1, s.uipPos k = .ok (p, learnt1) ∧ p < s.que.length ∧
      s.que.getD p default ∈ s.que ∧
      L.head? = some (s.que.getD p default).not) ∧
    b = (L.drop 1).foldl
      (fun a l => max a ((s.levels.getD l.vidx none).getD 0)) 0 ∧
    (∀ l ∈ L.drop 1, ∀ x : Int, s.levels.getD l.vidx none = some x → x ≤ b) ∧
    0 ≤ b ∧ b < s.decision_level := by
  unfold Solver.analyze at h
  cases hseed : analyzeSeed s s.decision_level (s.clauseOf k) ([], 0, []) with
  | error e =>
    simp only [hseed] at h
    exact absurd h (by simp)
  | ok tri =>
    obtain ⟨checking, counter, learnt0⟩ := tri
    simp only [hseed] at h
    by_cases hc1 : counter < 1
    · rw [if_pos hc1] at h
      exact absurd h (by simp)
    · rw [if_neg hc1] at h
      by_cases hq0 : s.que.length = 0
      · rw [if_pos hq0] at h
        exact absurd h (by simp)
      · rw [if_neg hq0] at h
        cases hwalk : analyzeWalk s s.decision_level (s.que.length - 1)
            checking counter learnt0 with
        | error e =>
          simp only [hwalk] at h
          exact absurd h (by simp)
        | ok pr =>
          obtain ⟨p, learnt1⟩ := pr
          simp only [hwalk] at h
          have hPseed : ∀ l ∈ learnt0, ∀ x : Int,
              s.levels.getD l.vidx none = some x → x < s.decision_level := by
            refine analyzeSeed_learnt s s.decision_level (s.clauseOf k)
              ([], 0, []) (checking, counter, learnt0) hseed ?_
            intro l hl
            exact absurd hl (by simp)
          obtain ⟨hp, hPl⟩ := analyzeWalk_ok s s.decision_level
            (s.que.length - 1) checking counter learnt0 p learnt1 hwalk
            (by omega) hPseed
          cases hbj : bjFold s 0
              ((swapIdx (learnt1 ++ [(s.que.getD p default).not]) 0
                ((learnt1 ++ [(s.que.getD p default).not]).length - 1)
                default).drop 1) with
          | error e =>
            rw [hbj] at h
            exact absurd h (by simp)
          | ok b2 =>
            rw [hbj] at h
            injection h with h
            injection h with hL hb
            subst hb
            have hlc0ne : (learnt1 ++ [(s.que.getD p default).not]) ≠ [] := by
              simp
            have hLlen : L.length
                = (learnt1 ++ [(s.que.getD p default).not]).length := by
              rw [← hL, length_swapIdx]
            have hLne : L ≠ [] := by
              intro hcon
              rw [hcon] at hLlen
              simp at hLlen
            have htail : ∀ l ∈ L.drop 1, ∀ x : Int,
                s.levels.getD l.vidx none = some x → x < s.decision_level := by
              intro l hl x hx
              have hmem : l ∈ (learnt1 ++ [(s.que.getD p default).not]).dropLast := by
                refine mem_drop_one_swap0Last _ default hlc0ne l ?_
                rw [hL]
                exact hl
              rw [List.dropLast_concat] at hmem
              exact hPl l hmem x hx
            have hbjL : bjFold s 0 (L.drop 1) = .ok b2 := by
              rw [← hL]
              exact hbj
            have hUip : s.uipPos k = .ok (p, learnt1) := by
              unfold Solver.uipPos
              simp only [hseed]
              rw [if_neg hc1, if_neg hq0]
              exact hwalk
            refine ⟨hLne,
              ⟨p, learnt1, hUip, hp, getD_mem s.que p default hp, ?_⟩,
              bjFold_eq_fold s (L.drop 1) 0 b2 hbjL,
              bjFold_ub s (L.drop 1) 0 b2 hbjL,
              bjFold_ge s (L.drop 1) 0 b2 hbjL,
              bjFold_lt s s.decision_level (L.drop 1) 0 b2 hbjL htail hd⟩
            rw [← hL]
            rw [head?_swap0Last _ default hlc0ne]
            have : (learnt1 ++ [(s.que.getD p default).not]).getD
                ((learnt1 ++ [(s.que.getD p default).not]).length - 1) default
                = (s.que.getD p default).not := by
              have hlen : (learnt1 ++ [(s.que.getD p default).not]).length - 1
                  = learnt1.length := by
                simp
              rw [hlen]
              exact getD_concat_length _ _ _
            rw [this]

/-- Witness for `analyze_spec`: on the concrete conflict state `cAn`
(decision `x0` at level 1, propagated `x1` with reason `{x1, !x0}`,
conflict clause `{!x0, !x1}`), `analyze` returns the unit learnt clause
`{!x0}` and backjump level 0. -/
theorem analyze_spec_witness :
    ([mkLit 0 false] : Clause) ≠ [] ∧
    (∃ p learnt1, cAn.uipPos 0 = .ok (p, learnt1) ∧ p < cAn.que.length ∧
      cAn.que.getD p default ∈ cAn.que ∧
      ([mkLit 0 false] : Clause).head? = some (cAn.que.getD p default).not) ∧
    (0 : Int) = (([mkLit 0 false] : Clause).drop 1).foldl
      (fun a l => max a ((cAn.levels.getD l.vidx none).getD 0)) 0 ∧
    (∀ l ∈ ([mkLit 0 false] : Clause).drop 1, ∀ x : Int,
      cAn.levels.getD l.vidx none = some x → x ≤ 0) ∧
    (0 : Int) ≤ 0 ∧ (0 : Int) < cAn.decision_level :=
  analyze_spec cAn 0 [mkLit 0 false] 0 rfl (by decide)

/-! ### Watcher-index lemmas -/

theorem getD_swapIdx {α} (l : List α) (i j n : Nat) (d d2 : α)
    (hi : i < l.length) (hj : j < l.length) :
    (swapIdx l i j d).getD n d2 =
      if n = j then l.getD i d
      else if n = i then l.getD j d
      else l.getD n d2 := by
  rw [List.getD_eq_getElem?_getD, getElem?_swapIdx l i j n d hi hj]
  by_cases hnj : n = j
  · rw [if_pos hnj, if_pos hnj]
    rfl
  · rw [if_neg hnj, if_neg hnj]
    by_cases hni : n = i
    · rw [if_pos hni, if_pos hni]
      rfl
    · rw [if_neg hni, if_neg hni, List.getD_eq_getElem?_getD]

theorem mem_of_mem_swapIdx {α} (l : List α) (i j : Nat) (d : α) (x : α)
    (hi : i < l.length) (hj : j < l.length)
    (hx : x ∈ swapIdx l i j d) : x ∈ l := by
  unfold swapIdx at hx
  rcases List.mem_or_eq_of_mem_set hx with h | h
  · rcases List.mem_or_eq_of_mem_set h with h2 | h2
    · exact h2
    · rw [h2]
      exact getD_mem l j d hj
  · rw [h]
    exact getD_mem l i d hi

theorem count_swapPop (l : List CRef) (i : Nat) (d : CRef) (h : i < l.length)
    (x : CRef) :
    ((l.set i (l.getD (l.length - 1) d)).dropLast).count x
      = l.count x - (if l.getD i d = x then 1 else 0) := by
  have hne : l ≠ [] := by
    intro hc
    rw [hc] at h
    simp at h
  have hb : l.length - 1 < l.length := by
    have := List.length_pos.mpr hne
    omega
  have hlast : l.getD (l.length - 1) d = l[l.length - 1] := by
    rw [List.getD_eq_getElem?_getD, List.getElem?_eq_getElem hb]
    rfl
  have hli : l.getD i d = l[i] := by
    rw [List.getD_eq_getElem?_getD, List.getElem?_eq_getElem h]
    rfl
  have hmne : l.set i (l.getD (l.length - 1) d) ≠ [] := by
    intro hc
    have h2 := congrArg List.length hc
    rw [List.length_set] at h2
    simp only [List.length_nil] at h2
    omega
  have hms := List.dropLast_append_getLast hmne
  have hglast : (l.set i (l.getD (l.length - 1) d)).getLast hmne
      = l[l.length - 1] := by
    rw [List.getLast_eq_getElem]
    simp only [List.length_set]
    rw [List.getElem_set]
    by_cases hil : i = l.length - 1
    · rw [if_pos hil, hlast]
    · rw [if_neg hil]
  have hcnt : (l.set i (l.getD (l.length - 1) d)).count x
      = ((l.set i (l.getD (l.length - 1) d)).dropLast).count x
        + (if l[l.length - 1] = x then 1 else 0) := by
    conv_lhs => rw [← hms]
    rw [List.count_append, List.count_singleton, hglast]
    by_cases he : l[l.length - 1] = x
    · rw [if_pos he, if_pos (by exact beq_iff_eq.mpr he)]
    · rw [if_neg he, if_neg (by simp [he])]
  have hset := List.count_set (l.getD (l.length - 1) d) x l i h
  rw [hlast] at hset
  have hposi : l[i] = x → 1 ≤ l.count x := by
    intro he
    refine List.count_pos_iff.mpr ?_
    rw [← he]
    exact List.getElem_mem h
  have hposl : l[l.length - 1] = x → 1 ≤ l.count x := by
    intro he
    refine List.count_pos_iff.mpr ?_
    rw [← he]
    exact List.getElem_mem hb
  have hset2 : (l.set i (l.getD (l.length - 1) d)).count x
      = l.count x - (if l[i] = x then 1 else 0)
        + (if l[l.length - 1] = x then 1 else 0) := by
    rw [hlast, hset]
    congr 1
    · congr 1
      by_cases h1 : l[i] = x
      · rw [if_pos h1, if_pos (beq_iff_eq.mpr h1)]
      · rw [if_neg h1, if_neg (by simp [h1])]
    · by_cases h2 : l[l.length - 1] = x
      · rw [if_pos h2, if_pos (beq_iff_eq.mpr h2)]
      · rw [if_neg h2, if_neg (by simp [h2])]
  rw [hli]
  by_cases h1 : l[i] = x <;> by_cases h2 : l[l.length - 1] = x
  · rw [if_pos h1, if_pos h2] at hset2
    rw [if_pos h2] at hcnt
    rw [if_pos h1]
    have := hposi h1
    omega
  · rw [if_pos h1, if_neg h2] at hset2
    rw [if_neg h2] at hcnt
    rw [if_pos h1]
    have := hposi h1
    omega
  · rw [if_neg h1, if_pos h2] at hset2
    rw [if_pos h2] at hcnt
    rw [if_neg h1]
    have := hposl h2
    omega
  · rw [if_neg h1, if_neg h2] at hset2
    rw [if_neg h2] at hcnt
    rw [if_neg h1]
    omega

theorem mem_swapPop (l : List CRef) (i : Nat) (d : CRef) (x : CRef)
    (hi : i < l.length)
    (hx : x ∈ (l.set i (l.getD (l.length - 1) d)).dropLast) : x ∈ l := by
  have hb : l.length - 1 < l.length := by omega
  have h2 : x ∈ l.set i (l.getD (l.length - 1) d) :=
    (List.dropLast_sublist _).mem hx
  rcases List.mem_or_eq_of_mem_set h2 with h3 | h3
  · exact h3
  · rw [h3]
    exact getD_mem l (l.length - 1) d hb

theorem findNonFalseAux_none (s : Solver) :
    ∀ (lits : List Lit) (start : Nat),
    findNonFalseAux s lits start = none →
    ∀ j < lits.length, s.eval (lits.getD j default) = LitBool.False := by
  intro lits
  induction lits with
  | nil =>
    intro start _ j hj
    simp at hj
  | cons c rest ih =>
    intro start h j hj
    simp only [findNonFalseAux] at h
    by_cases he : s.eval c ≠ LitBool.False
    · rw [if_pos he] at h
      exact absurd h (by simp)
    · rw [if_neg he] at h
      cases j with
      | zero =>
        show s.eval c = LitBool.False
        revert he
        cases s.eval c <;> simp
      | succ j2 =>
        have := ih (start + 1) h j2 (by simpa using hj)
        simpa using this

theorem findNonFalseAux_some (s : Solver) :
    ∀ (lits : List Lit) (start k : Nat),
    findNonFalseAux s lits start = some k →
    start ≤ k ∧ k - start < lits.length ∧
    s.eval (lits.getD (k - start) default) ≠ LitBool.False := by
  intro lits
  induction lits with
  | nil =>
    intro start k h
    simp [findNonFalseAux] at h
  | cons c rest ih =>
    intro start k h
    simp only [findNonFalseAux] at h
    by_cases he : s.eval c ≠ LitBool.False
    · rw [if_pos he] at h
      injection h with h
      subst h
      refine ⟨le_refl _, by simp, ?_⟩
      simpa using he
    · rw [if_neg he] at h
      obtain ⟨h1, h2, h3⟩ := ih (start + 1) k h
      refine ⟨by omega, by simp; omega, ?_⟩
      have hks : k - start = (k - (start + 1)) + 1 := by omega
      rw [hks]
      simpa using h3

theorem findNonFalse_some (s : Solver) (cl : Clause) (k0 k : Nat)
    (h : findNonFalse s cl k0 = some k) :
    k0 ≤ k ∧ k < cl.length ∧ s.eval (cl.getD k default) ≠ LitBool.False := by
  unfold findNonFalse at h
  obtain ⟨h1, h2, h3⟩ := findNonFalseAux_some s (cl.drop k0) k0 k h
  have hlen : (cl.drop k0).length = cl.length - k0 := by simp
  have hklen : k < cl.length := by omega
  refine ⟨h1, hklen, ?_⟩
  have hgd : (cl.drop k0).getD (k - k0) default = cl.getD k default := by
    rw [List.getD_eq_getElem?_getD, List.getElem?_drop,
      List.getD_eq_getElem?_getD]
    have : k0 + (k - k0) = k := by omega
    rw [this]
  rw [hgd] at h3
  exact h3

theorem findNonFalse_none (s : Solver) (cl : Clause) (k0 : Nat)
    (h : findNonFalse s cl k0 = none) :
    ∀ k, k0 ≤ k → k < cl.length → s.eval (cl.getD k default) = LitBool.False := by
  intro k hk1 hk2
  unfold findNonFalse at h
  have hlen : k - k0 < (cl.drop k0).length := by simp; omega
  have h2 := findNonFalseAux_none s (cl.drop k0) k0 h (k - k0) hlen
  have hgd : (cl.drop k0).getD (k - k0) default = cl.getD k default := by
    rw [List.getD_eq_getElem?_getD, List.getElem?_drop,
      List.getD_eq_getElem?_getD]
    have : k0 + (k - k0) = k := by omega
    rw [this]
  rw [hgd] at h2
  exact h2

/-- `WatchInv` only depends on the clause arena, the watcher index, and the
clause database. -/
theorem watchInv_congr (s t : Solver) (h1 : t.store = s.store)
    (h2 : t.watchers = s.watchers) (h3 : t.clauses = s.clauses)
    (hW : WatchInv s) : WatchInv t := by
  unfold WatchInv
  rw [h1, h2, h3]
  exact hW

/-- A successful `enqueue` changes only `levels`, `assings`, `reasons` and
`que`, in exactly the way the source writes them. -/
theorem enqueue_eq_of_ok (s t : Solver) (lit : Lit) (reason : Option CRef)
    (h : s.enqueue lit reason = .ok t) :
    s.levels.getD lit.vidx none = none ∧
    t = { s with
      levels := s.levels.set lit.vidx (some s.decision_level)
      assings := s.assings.set lit.vidx lit.pos
      reasons := s.reasons.set lit.vidx reason
      que := s.que ++ [lit] } := by
  unfold Solver.enqueue at h
  by_cases hc : (s.levels.getD lit.vidx none).isSome
  · rw [if_pos hc] at h
    exact absurd h (by simp)
  · rw [if_neg hc] at h
    injection h with h
    refine ⟨?_, h.symm⟩
    revert hc
    cases s.levels.getD lit.vidx none <;> simp

theorem getD_cons_zero {α} (a : α) (l : List α) (d : α) : (a :: l).getD 0 d = a :=
  rfl

theorem getD_cons_one {α} (a b : α) (l : List α) (d : α) :
    (a :: b :: l).getD 1 d = b := rfl

/-- A clause handle read from a non-empty watcher list is a stored clause
(by the closure half of `WatchInv`) and indexes into the arena. -/
theorem watch_cr_mem (s : Solver) (lit : Lit) (i : Nat)
    (hi : i < (s.watchers.getD lit.lidx []).length)
    (hW : WatchInv s) :
    lit.lidx < s.watchers.length ∧
    (s.watchers.getD lit.lidx []).getD i 0 ∈ s.clauses ∧
    (s.watchers.getD lit.lidx []).getD i 0 < s.store.length := by
  obtain ⟨hok, hclosed⟩ := hW
  have hlidx : lit.lidx < s.watchers.length := by
    by_contra hc
    push_neg at hc
    rw [getD_oob s.watchers lit.lidx [] hc] at hi
    simp at hi
  have hmem := hclosed lit.lidx hlidx _ (getD_mem _ i 0 hi)
  exact ⟨hlidx, hmem, (hok _ hmem).2.1⟩

/-- Swapping the first two literals of a stored clause in place (the
watched-literal normalization of `Solver::propagate`) preserves the watcher
invariant: the watched pair is the same two literals. -/
theorem watch_norm (s : Solver) (cr : CRef) (c0 c1 : Lit) (crest : List Lit)
    (hW : WatchInv s)
    (hmem : cr ∈ s.clauses)
    (hcl : s.clauseOf cr = c0 :: c1 :: crest) :
    WatchInv { s with store := s.store.set cr (c1 :: c0 :: crest) } := by
  obtain ⟨hok, hclosed⟩ := hW
  obtain ⟨h2len, hcrst, hbounds, hcount⟩ := hok cr hmem
  unfold Solver.clauseOf at hcl
  rw [hcl] at hbounds hcount
  show WatchB (s.store.set cr (c1 :: c0 :: crest)) s.watchers s.clauses
  constructor
  · intro cr2 hmem2
    by_cases hc2 : cr2 = cr
    · subst hc2
      refine ⟨?_, ?_, ?_, ?_⟩
      · rw [getD_set_self _ _ _ _ hcrst]
        simp only [List.length_cons]
        omega
      · rw [List.length_set]
        exact hcrst
      · intro l hl
        rw [getD_set_self _ _ _ _ hcrst] at hl
        refine hbounds l ?_
        have : l = c1 ∨ l = c0 ∨ l ∈ crest := by simpa using hl
        simp only [List.mem_cons]
        tauto
      · intro li hli
        rw [getD_set_self _ _ _ _ hcrst, getD_cons_zero, getD_cons_one]
        have hc := hcount li hli
        rw [getD_cons_zero, getD_cons_one] at hc
        rw [hc]
        exact Nat.add_comm _ _
    · obtain ⟨g1, g2, g3, g4⟩ := hok cr2 hmem2
      have hstne : (s.store.set cr (c1 :: c0 :: crest)).getD cr2 []
          = s.store.getD cr2 [] :=
        getD_set_ne _ _ _ _ _ (fun he => hc2 he.symm)
      exact ⟨by rw [hstne]; exact g1, by rw [List.length_set]; exact g2,
        by rw [hstne]; exact g3, by rw [hstne]; exact g4⟩
  · exact hclosed

/-- Moving a watch (the `some k` branch of the inner propagate loop:
swap the false watched literal with a non-false literal at index `k`,
swap-pop the handle out of `watchers[lit.lidx()]`, push it onto the list
of the new second watch's negation) preserves the watcher invariant. -/
theorem watch_move (s t : Solver) (lit : Lit) (cr : CRef) (i k : Nat)
    (cl cl2 : Clause) (wl wl2 : List CRef) (ws2 ws3 : List (List CRef))
    (tgt : Nat)
    (hW : WatchInv s)
    (hwl : wl = s.watchers.getD lit.lidx [])
    (hi : i < wl.length)
    (hcr : wl.getD i 0 = cr)
    (hcl : s.clauseOf cr = cl)
    (hw1 : cl.getD 1 default = lit.not)
    (hk2 : 2 ≤ k) (hklen : k < cl.length)
    (hcl2 : cl2 = swapIdx cl 1 k default)
    (hwl2 : wl2 = (wl.set i (wl.getD (wl.length - 1) 0)).dropLast)
    (hws2 : ws2 = s.watchers.set lit.lidx wl2)
    (htgt : tgt = (cl2.getD 1 default).not.lidx)
    (hws3 : ws3 = ws2.set tgt ((ws2.getD tgt []) ++ [cr]))
    (ht : t = { s with store := s.store.set cr cl2, watchers := ws3 }) :
    WatchInv t := by
  obtain ⟨hok, hclosed⟩ := hW
  have hlidx : lit.lidx < s.watchers.length := by
    by_contra hc
    push_neg at hc
    rw [hwl, getD_oob s.watchers lit.lidx [] hc] at hi
    simp at hi
  have hcrcs : cr ∈ s.clauses := by
    refine hclosed lit.lidx hlidx cr ?_
    rw [← hwl, ← hcr]
    exact getD_mem wl i 0 hi
  obtain ⟨h2len, hcrst, hbounds, hcount⟩ := hok cr hcrcs
  unfold Solver.clauseOf at hcl
  rw [hcl] at h2len hbounds hcount
  have h1len : 1 < cl.length := by omega
  have hcl2_0 : cl2.getD 0 default = cl.getD 0 default := by
    rw [hcl2, getD_swapIdx cl 1 k 0 default default h1len hklen,
      if_neg (by omega), if_neg (by omega)]
  have hcl2_1 : cl2.getD 1 default = cl.getD k default := by
    rw [hcl2, getD_swapIdx cl 1 k 1 default default h1len hklen,
      if_neg (by omega), if_pos rfl]
  have htgt' : tgt = (cl.getD k default).not.lidx := by rw [htgt, hcl2_1]
  have hcl2len : cl2.length = cl.length := by rw [hcl2, length_swapIdx]
  have htgtlt : tgt < s.watchers.length := by
    rw [htgt']
    exact (hbounds (cl.getD k default) (getD_mem cl k default hklen)).2
  have hwl2cnt : ∀ x, wl2.count x = wl.count x - (if cr = x then 1 else 0) := by
    intro x
    rw [hwl2, count_swapPop wl i 0 hi x, hcr]
  have hwl2mem : ∀ x ∈ wl2, x ∈ wl := by
    intro x hx
    rw [hwl2] at hx
    exact mem_swapPop wl i 0 x hi hx
  have hcount' : ∀ li < s.watchers.length, (s.watchers.getD li []).count cr
      = (if li = (cl.getD 0 default).not.lidx then 1 else 0)
        + (if li = lit.lidx then 1 else 0) := by
    intro li hli
    have hc := hcount li hli
    rw [hw1, Lit.not_not] at hc
    exact hc
  have hcLL : wl.count cr
      = (if lit.lidx = (cl.getD 0 default).not.lidx then 1 else 0) + 1 := by
    have hc := hcount' lit.lidx hlidx
    rw [if_pos rfl] at hc
    rw [hwl]
    exact hc
  have hws3len : ws3.length = s.watchers.length := by
    rw [hws3, hws2, List.length_set, List.length_set]
  have hws2get : ws2.getD tgt []
      = if tgt = lit.lidx then wl2 else s.watchers.getD tgt [] := by
    by_cases hB : tgt = lit.lidx
    · rw [if_pos hB, hB, hws2]
      exact getD_set_self _ _ _ _ hlidx
    · rw [if_neg hB, hws2, getD_set_ne _ _ _ _ _ (fun he => hB he.symm)]
  have hwsget : ∀ li, ws3.getD li [] =
      if li = tgt then (ws2.getD tgt []) ++ [cr]
      else if li = lit.lidx then wl2
      else s.watchers.getD li [] := by
    intro li
    by_cases hA : li = tgt
    · rw [if_pos hA, hA, hws3]
      refine getD_set_self _ _ _ _ ?_
      rw [hws2, List.length_set]
      exact htgtlt
    · rw [if_neg hA, hws3, getD_set_ne _ _ _ _ _ (fun he => hA he.symm)]
      by_cases hB : li = lit.lidx
      · rw [if_pos hB, hB, hws2]
        exact getD_set_self _ _ _ _ hlidx
      · rw [if_neg hB, hws2, getD_set_ne _ _ _ _ _ (fun he => hB he.symm)]
  have hone : ([cr] : List CRef).count cr = 1 := by simp
  rw [ht]
  show WatchB (s.store.set cr cl2) ws3 s.clauses
  constructor
  · intro cr2 hmem2
    by_cases hc2 : cr2 = cr
    · subst hc2
      refine ⟨?_, ?_, ?_, ?_⟩
      · rw [getD_set_self _ _ _ _ hcrst, hcl2len]
        omega
      · rw [List.length_set]
        exact hcrst
      · intro l hl
        rw [getD_set_self _ _ _ _ hcrst, hcl2] at hl
        have hlin : l ∈ cl := mem_of_mem_swapIdx cl 1 k default l h1len hklen hl
        rw [hws3len]
        exact hbounds l hlin
      · intro li hli
        rw [hws3len] at hli
        rw [getD_set_self _ _ _ _ hcrst, hcl2_0, ← htgt]
        rw [hwsget li]
        by_cases hA : li = tgt
        · rw [if_pos hA, List.count_append, hone, hws2get]
          by_cases hB : tgt = lit.lidx
          · rw [if_pos hB, hwl2cnt cr2, if_pos rfl, if_pos hA]
            have hc := hcLL
            by_cases hw : li = (cl.getD 0 default).not.lidx
            · rw [if_pos hw]
              rw [if_pos (show lit.lidx = (cl.getD 0 default).not.lidx by
                rw [← hB, ← hA]; exact hw)] at hc
              omega
            · rw [if_neg hw]
              rw [if_neg (show ¬lit.lidx = (cl.getD 0 default).not.lidx by
                rw [← hB, ← hA]; exact hw)] at hc
              omega
          · rw [if_neg hB]
            have hc := hcount' li hli
            rw [if_neg (show ¬li = lit.lidx by rw [hA]; exact hB)] at hc
            rw [← hA, if_pos rfl, hc]
        · rw [if_neg hA, if_neg hA]
          by_cases hB : li = lit.lidx
          · rw [if_pos hB, hwl2cnt cr2, if_pos rfl]
            have hc := hcLL
            by_cases hw : li = (cl.getD 0 default).not.lidx
            · rw [if_pos hw]
              rw [if_pos (show lit.lidx = (cl.getD 0 default).not.lidx by
                rw [← hB]; exact hw)] at hc
              omega
            · rw [if_neg hw]
              rw [if_neg (show ¬lit.lidx = (cl.getD 0 default).not.lidx by
                rw [← hB]; exact hw)] at hc
              omega
          · rw [if_neg hB]
            have hc := hcount' li hli
            rw [if_neg hB] at hc
            exact hc
    · obtain ⟨g1, g2, g3, g4⟩ := hok cr2 hmem2
      have hstne : (s.store.set cr cl2).getD cr2 [] = s.store.getD cr2 [] :=
        getD_set_ne _ _ _ _ _ (fun he => hc2 he.symm)
      have hcnt2 : ∀ li, (ws3.getD li []).count cr2
          = (s.watchers.getD li []).count cr2 := by
        intro li
        rw [hwsget li]
        by_cases hA : li = tgt
        · rw [if_pos hA, List.count_append]
          have hz : ([cr] : List CRef).count cr2 = 0 :=
            List.count_eq_zero.mpr (by simpa using hc2)
          rw [hz, hws2get]
          by_cases hB : tgt = lit.lidx
          · rw [if_pos hB, hwl2cnt cr2, if_neg (fun he => hc2 he.symm),
              hA, hB, hwl]
            omega
          · rw [if_neg hB, hA]
            omega
        · rw [if_neg hA]
          by_cases hB : li = lit.lidx
          · rw [if_pos hB, hwl2cnt cr2, if_neg (fun he => hc2 he.symm),
              hB, hwl]
            omega
          · rw [if_neg hB]
      refine ⟨by rw [hstne]; exact g1, by rw [List.length_set]; exact g2,
        ?_, ?_⟩
      · intro l hl
        rw [hstne] at hl
        rw [hws3len]
        exact g3 l hl
      · intro li hli
        rw [hws3len] at hli
        rw [hcnt2 li, hstne]
        exact g4 li hli
  · intro li hli cr2 hcr2
    rw [hws3len] at hli
    rw [hwsget li] at hcr2
    by_cases hA : li = tgt
    · rw [if_pos hA] at hcr2
      rcases List.mem_append.mp hcr2 with h | h
      · rw [hws2get] at h
        by_cases hB : tgt = lit.lidx
        · rw [if_pos hB] at h
          have hmw := hwl2mem cr2 h
          rw [hwl] at hmw
          exact hclosed lit.lidx hlidx cr2 hmw
        · rw [if_neg hB] at h
          exact hclosed tgt htgtlt cr2 h
      · have : cr2 = cr := by simpa using h
        rw [this]
        exact hcrcs
    · rw [if_neg hA] at hcr2
      by_cases hB : li = lit.lidx
      · rw [if_pos hB] at hcr2
        have hmw := hwl2mem cr2 hcr2
        rw [hwl] at hmw
        exact hclosed lit.lidx hlidx cr2 hmw
      · rw [if_neg hB] at hcr2
        exact hclosed li hli cr2 hcr2

/-- The post-normalization part of an inner propagate iteration preserves
the watcher invariant. -/
theorem propCheckBody_watch (lit : Lit) (cr : CRef) (i : Nat) (s1 : Solver)
    (first w1 : Lit) (crest : List Lit) (res : InnerRes)
    (hcr : (s1.watchers.getD lit.lidx []).getD i 0 = cr)
    (hi : i < (s1.watchers.getD lit.lidx []).length)
    (hcl1 : s1.clauseOf cr = first :: w1 :: crest)
    (hW1 : WatchInv s1)
    (h : propCheckBody lit cr i s1 first w1 crest = .ok res) :
    WatchInv res.state := by
  simp only [propCheckBody] at h
  by_cases hc1 : w1 = lit.not ∧ s1.eval w1 = LitBool.False
  · rw [if_pos hc1] at h
    obtain ⟨hw1, _⟩ := hc1
    by_cases hT : s1.eval first = LitBool.True
    · rw [if_pos hT] at h
      injection h with h
      rw [← h]
      exact hW1
    · rw [if_neg hT] at h
      cases hfind : findNonFalse s1 (first :: w1 :: crest) 2 with
      | some k =>
        simp only [hfind] at h
        injection h with h
        rw [← h]
        obtain ⟨hk2, hklen, _⟩ :=
          findNonFalse_some s1 (first :: w1 :: crest) 2 k hfind
        exact watch_move s1 _ lit cr i k (first :: w1 :: crest)
          (swapIdx (first :: w1 :: crest) 1 k default)
          (s1.watchers.getD lit.lidx []) _ _ _ _
          hW1 rfl hi hcr hcl1 (by rw [getD_cons_one]; exact hw1) hk2 hklen
          rfl rfl rfl rfl rfl rfl
      | none =>
        simp only [hfind] at h
        by_cases hF : s1.eval first = LitBool.False
        · rw [if_pos hF] at h
          injection h with h
          rw [← h]
          exact watchInv_congr s1 _ rfl rfl rfl hW1
        · rw [if_neg hF] at h
          by_cases hU : s1.eval first = LitBool.Undefine
          · rw [if_pos hU] at h
            cases henq : s1.enqueue first (some cr) with
            | error e =>
              simp only [henq] at h
              exact absurd h (by simp)
            | ok s2 =>
              simp only [henq] at h
              injection h with h
              rw [← h]
              obtain ⟨_, he⟩ := enqueue_eq_of_ok s1 s2 first (some cr) henq
              exact watchInv_congr s1 s2 (show s2.store = s1.store by rw [he])
                (show s2.watchers = s1.watchers by rw [he])
                (show s2.clauses = s1.clauses by rw [he]) hW1
          · rw [if_neg hU] at h
            exact absurd h (by simp)
  · rw [if_neg hc1] at h
    exact absurd h (by simp)

/-- One inner propagate iteration preserves the watcher invariant. -/
theorem propCheck_watch (lit : Lit) (s : Solver) (i : Nat) (res : InnerRes)
    (h : propCheck lit s i = .ok res)
    (hi : i < (s.watchers.getD lit.lidx []).length)
    (hW : WatchInv s) :
    WatchInv res.state := by
  obtain ⟨hlidx, hcrcs, hcrst⟩ := watch_cr_mem s lit i hi hW
  simp only [propCheck] at h
  cases hcl : s.clauseOf ((s.watchers.getD lit.lidx []).getD i 0) with
  | nil =>
    simp only [hcl] at h
    exact absurd h (by simp)
  | cons c0 cl1 =>
    cases cl1 with
    | nil =>
      simp only [hcl] at h
      exact absurd h (by simp)
    | cons c1 crest =>
      simp only [hcl] at h
      by_cases hor : c0 = lit.not ∨ c1 = lit.not
      · rw [if_pos hor] at h
        by_cases hc0 : c0 = lit.not
        · simp only [if_pos hc0] at h
          have hW1 := watch_norm s ((s.watchers.getD lit.lidx []).getD i 0)
            c0 c1 crest hW hcrcs hcl
          refine propCheckBody_watch lit ((s.watchers.getD lit.lidx []).getD i 0)
            i _ c1 c0 crest res ?_ ?_ ?_ hW1 h
          · exact rfl
          · exact hi
          · exact getD_set_self _ _ _ _ hcrst
        · simp only [if_neg hc0] at h
          exact propCheckBody_watch lit _ i s c0 c1 crest res rfl hi hcl hW h
      · rw [if_neg hor] at h
        exact absurd h (by simp)

/-- The inner watcher-list loop preserves the watcher invariant. -/
theorem propInner_watch (lit : Lit) :
    ∀ (fuel : Nat) (s : Solver) (i : Nat) (s2 : Solver) (r : Option CRef),
    propInner lit fuel s i = .ok (s2, r) → WatchInv s → WatchInv s2 := by
  intro fuel
  induction fuel with
  | zero =>
    intro s i s2 r h hW
    simp [propInner] at h
  | succ fuel ih =>
    intro s i s2 r h hW
    simp only [propInner] at h
    by_cases hi : i < (s.watchers.getD lit.lidx []).length
    · rw [if_pos hi] at h
      cases hpc : propCheck lit s i with
      | error e =>
        simp only [hpc] at h
        exact absurd h (by simp)
      | ok ir =>
        have hWr := propCheck_watch lit s i ir hpc hi hW
        cases ir with
        | keep s1 =>
          simp only [hpc] at h
          exact ih s1 (i + 1) s2 r h hWr
        | moved s1 =>
          simp only [hpc] at h
          exact ih s1 i s2 r h hWr
        | conflict s1 cr =>
          simp only [hpc] at h
          injection h with h
          have h2 : s1 = s2 := congrArg Prod.fst h
          rw [← h2]
          exact hWr
    · rw [if_neg hi] at h
      injection h with h
      have h2 : s = s2 := congrArg Prod.fst h
      rw [← h2]
      exact hW

/-- The outer propagate loop preserves the watcher invariant. -/
theorem propOuter_watch :
    ∀ (fuel : Nat) (s s2 : Solver) (r : Option CRef),
    propOuter fuel s = .ok (s2, r) → WatchInv s → WatchInv s2 := by
  intro fuel
  induction fuel with
  | zero =>
    intro s s2 r h hW
    simp [propOuter] at h
  | succ fuel ih =>
    intro s s2 r h hW
    simp only [propOuter] at h
    by_cases hq : s.que_head < s.que.length
    · rw [if_pos hq] at h
      cases hpi : propInner (s.que.getD s.que_head default) (fuel + 1)
          { s with que_head := s.que_head + 1 } 0 with
      | error e =>
        simp only [hpi] at h
        exact absurd h (by simp)
      | ok pr =>
        obtain ⟨s3, r3⟩ := pr
        have hW3 : WatchInv s3 :=
          propInner_watch _ _ _ _ _ _ hpi (watchInv_congr s _ rfl rfl rfl hW)
        cases r3 with
        | some cr =>
          simp only [hpi] at h
          injection h with h
          have h2 : s3 = s2 := congrArg Prod.fst h
          rw [← h2]
          exact hW3
        | none =>
          simp only [hpi] at h
          exact ih s3 s2 r h hW3
    · rw [if_neg hq] at h
      injection h with h
      have h2 : s = s2 := congrArg Prod.fst h
      rw [← h2]
      exact hW

/-- Pushing a fresh handle (watched nowhere yet) onto the watcher lists of
the negations of its clause's first two literals, and registering it in the
clause database, establishes/preserves the watcher invariant. -/
theorem watchB_attach (st : List Clause) (ws : List (List CRef)) (cs : List CRef)
    (cr : CRef) (w0 w1 : Nat)
    (hW : WatchB st ws cs)
    (h1 : cr < st.length)
    (h2 : 2 ≤ (st.getD cr []).length)
    (h3 : ∀ l ∈ st.getD cr [], l.lidx < ws.length ∧ l.not.lidx < ws.length)
    (h4 : ∀ li < ws.length, (ws.getD li []).count cr = 0)
    (hw0 : w0 = ((st.getD cr []).getD 0 default).not.lidx)
    (hw1 : w1 = ((st.getD cr []).getD 1 default).not.lidx) :
    WatchB st ((ws.set w0 ((ws.getD w0 []) ++ [cr])).set w1
      (((ws.set w0 ((ws.getD w0 []) ++ [cr])).getD w1 []) ++ [cr]))
      (cs ++ [cr]) := by
  obtain ⟨hok, hclosed⟩ := hW
  have hw0lt : w0 < ws.length := by
    rw [hw0]
    exact (h3 _ (getD_mem _ 0 default (by omega))).2
  have hw1lt : w1 < ws.length := by
    rw [hw1]
    exact (h3 _ (getD_mem _ 1 default (by omega))).2
  have hget1 : ∀ li, (ws.set w0 (ws.getD w0 [] ++ [cr])).getD li []
      = if li = w0 then ws.getD w0 [] ++ [cr] else ws.getD li [] := by
    intro li
    by_cases hA : li = w0
    · rw [if_pos hA, hA]
      exact getD_set_self _ _ _ _ hw0lt
    · rw [if_neg hA]
      exact getD_set_ne _ _ _ _ _ (fun he => hA he.symm)
  have hget2 : ∀ li, ((ws.set w0 (ws.getD w0 [] ++ [cr])).set w1
        ((ws.set w0 (ws.getD w0 [] ++ [cr])).getD w1 [] ++ [cr])).getD li []
      = if li = w1 then (ws.set w0 (ws.getD w0 [] ++ [cr])).getD w1 [] ++ [cr]
        else (ws.set w0 (ws.getD w0 [] ++ [cr])).getD li [] := by
    intro li
    by_cases hA : li = w1
    · rw [if_pos hA, hA]
      refine getD_set_self _ _ _ _ ?_
      rw [List.length_set]
      exact hw1lt
    · rw [if_neg hA]
      exact getD_set_ne _ _ _ _ _ (fun he => hA he.symm)
  have hlen2 : ((ws.set w0 (ws.getD w0 [] ++ [cr])).set w1
      ((ws.set w0 (ws.getD w0 [] ++ [cr])).getD w1 [] ++ [cr])).length
      = ws.length := by
    rw [List.length_set, List.length_set]
  have honecr : ([cr] : List CRef).count cr = 1 := by simp
  have hcnt_cr : ∀ li < ws.length,
      (((ws.set w0 (ws.getD w0 [] ++ [cr])).set w1
        ((ws.set w0 (ws.getD w0 [] ++ [cr])).getD w1 [] ++ [cr])).getD li
          []).count cr
      = (if li = w0 then 1 else 0) + (if li = w1 then 1 else 0) := by
    intro li hli
    rw [hget2 li]
    by_cases hA : li = w1
    · rw [if_pos hA, List.count_append, honecr, hget1 w1]
      by_cases hB : w1 = w0
      · rw [if_pos hB, List.count_append, honecr, h4 w0 hw0lt,
          if_pos (show li = w0 by rw [hA, hB]), if_pos hA]
      · rw [if_neg hB, h4 w1 hw1lt,
          if_neg (show ¬li = w0 by rw [hA]; exact hB), if_pos hA]
    · rw [if_neg hA, hget1 li]
      by_cases hB : li = w0
      · rw [if_pos hB, List.count_append, honecr, h4 w0 hw0lt, if_pos hB,
          if_neg hA]
      · rw [if_neg hB, h4 li hli, if_neg hB, if_neg hA]
  have hcnt_ne : ∀ li (x : CRef), x ≠ cr →
      (((ws.set w0 (ws.getD w0 [] ++ [cr])).set w1
        ((ws.set w0 (ws.getD w0 [] ++ [cr])).getD w1 [] ++ [cr])).getD li
          []).count x
      = (ws.getD li []).count x := by
    intro li x hx
    have hz : ([cr] : List CRef).count x = 0 :=
      List.count_eq_zero.mpr (by simpa using hx)
    rw [hget2 li]
    by_cases hA : li = w1
    · rw [if_pos hA, List.count_append, hz, hget1 w1]
      by_cases hB : w1 = w0
      · rw [if_pos hB, List.count_append, hz, hA, hB]
        omega
      · rw [if_neg hB, hA]
        omega
    · rw [if_neg hA, hget1 li]
      by_cases hB : li = w0
      · rw [if_pos hB, List.count_append, hz, hB]
        omega
      · rw [if_neg hB]
  have hcrnot : cr ∉ cs := by
    intro hmem
    obtain ⟨g1, g2, g3, g4⟩ := hok cr hmem
    have hb0 := (g3 _ (getD_mem _ 0 default (by omega))).2
    have hcv := g4 _ hb0
    rw [h4 _ hb0, if_pos rfl] at hcv
    omega
  constructor
  · intro cr2 hmem2
    rcases List.mem_append.mp hmem2 with hold | hnew
    · have hne : cr2 ≠ cr := fun he => hcrnot (he ▸ hold)
      obtain ⟨g1, g2, g3, g4⟩ := hok cr2 hold
      refine ⟨g1, g2, ?_, ?_⟩
      · intro l hl
        rw [hlen2]
        exact g3 l hl
      · intro li hli
        rw [hlen2] at hli
        rw [hcnt_ne li cr2 hne]
        exact g4 li hli
    · have he : cr2 = cr := by simpa using hnew
      rw [he]
      refine ⟨h2, h1, ?_, ?_⟩
      · intro l hl
        rw [hlen2]
        exact h3 l hl
      · intro li hli
        rw [hlen2] at hli
        rw [hcnt_cr li hli, hw0, hw1]
  · intro li hli cr2 hm
    rw [hlen2] at hli
    rw [hget2 li] at hm
    by_cases hA : li = w1
    · rw [if_pos hA] at hm
      rcases List.mem_append.mp hm with hm1 | hm1
      · rw [hget1 w1] at hm1
        by_cases hB : w1 = w0
        · rw [if_pos hB] at hm1
          rcases List.mem_append.mp hm1 with hm2 | hm2
          · exact List.mem_append.mpr (Or.inl (hclosed w0 hw0lt cr2 hm2))
          · have : cr2 = cr := by simpa using hm2
            exact List.mem_append.mpr (Or.inr (by simp [this]))
        · rw [if_neg hB] at hm1
          exact List.mem_append.mpr (Or.inl (hclosed w1 hw1lt cr2 hm1))
      · have : cr2 = cr := by simpa using hm1
        exact List.mem_append.mpr (Or.inr (by simp [this]))
    · rw [if_neg hA, hget1 li] at hm
      by_cases hB : li = w0
      · rw [if_pos hB] at hm
        rcases List.mem_append.mp hm with hm2 | hm2
        · exact List.mem_append.mpr (Or.inl (hclosed w0 hw0lt cr2 hm2))
        · have : cr2 = cr := by simpa using hm2
          exact List.mem_append.mpr (Or.inr (by simp [this]))
      · rw [if_neg hB] at hm
        exact List.mem_append.mpr (Or.inl (hclosed li hli cr2 hm))

/-- `Solver::attach_clause` establishes the watcher invariant for a fresh
clause handle and keeps it for all previously attached clauses. -/
theorem attach_watch (s : Solver) (cr : CRef) (lrnt : Bool) (s' : Solver)
    (h1 : cr < s.store.length)
    (h2 : 2 ≤ (s.clauseOf cr).length)
    (h3 : ∀ l ∈ s.clauseOf cr,
      l.lidx < s.watchers.length ∧ l.not.lidx < s.watchers.length)
    (h4 : ∀ li < s.watchers.length, (s.watchers.getD li []).count cr = 0)
    (h5 : s.attach_clause cr lrnt = .ok s')
    (hW : WatchInv s) : WatchInv s' := by
  unfold Solver.clauseOf at h2 h3
  simp only [Solver.attach_clause, Solver.clauseOf] at h5
  rw [if_neg (by omega)] at h5
  injection h5 with h5
  rw [← h5]
  exact watchB_attach s.store s.watchers s.clauses cr _ _ hW h1 h2 h3 h4
    rfl rfl

/-! ### Trail and evaluation facts for the reason-shape invariant -/

theorem Lit.vidx_lt (l : Lit) (n : Nat) (h : l.lidx < 2 * n) : l.vidx < n := by
  simp only [Lit.vidx, Lit.var, Lit.lidx] at *
  omega

theorem eval_congr (s t : Solver) (l : Lit)
    (hlv : t.levels.getD l.vidx none = s.levels.getD l.vidx none)
    (has : t.assings.getD l.vidx false = s.assings.getD l.vidx false) :
    t.eval l = s.eval l := by
  unfold Solver.eval
  rw [hlv, has]

theorem lenOk_congr (s t : Solver)
    (h2 : t.levels.length = s.levels.length)
    (h3 : t.reasons.length = s.reasons.length)
    (h4 : t.assings.length = s.assings.length)
    (h5 : t.watchers.length = s.watchers.length)
    (h : LenOk s) : LenOk t := by
  unfold LenOk at h ⊢
  rw [h2, h3, h4, h5]
  exact h

theorem trailWF_congr (s t : Solver)
    (h1 : t.que = s.que) (h2 : t.levels = s.levels)
    (h3 : t.reasons = s.reasons) (h4 : t.assings = s.assings)
    (hW : TrailWF s) : TrailWF t := by
  unfold TrailWF levOf at hW ⊢
  rw [h1, h2, h3, h4]
  exact hW

theorem levelChain_congr (s t : Solver)
    (h1 : t.que = s.que) (h2 : t.levels = s.levels)
    (hC : LevelChain s) : LevelChain t := by
  unfold LevelChain levAt levOf at hC ⊢
  rw [h1, h2]
  exact hC

theorem reasonOk_congr (s t : Solver)
    (hq : t.que = s.que) (hl : t.levels = s.levels)
    (ha : t.assings = s.assings) (hr : t.reasons = s.reasons)
    (hst : t.store = s.store) (h : ReasonOk s) : ReasonOk t := by
  unfold ReasonOk reasonShapeAt Solver.clauseOf Solver.eval at h ⊢
  rw [hq, hl, ha, hr, hst]
  exact h

/-- Every trail literal evaluates to `True` (it is assigned with matching
polarity). -/
theorem eval_true_of_mem (s : Solver) (hT : TrailWF s) (l : Lit)
    (hl : l ∈ s.que) : s.eval l = LitBool.True := by
  obtain ⟨h1, _, _⟩ := hT
  obtain ⟨_, _, _, hsome, hpos⟩ := h1 l hl
  unfold levOf at hsome
  unfold Solver.eval
  rw [hsome, hpos]
  cases hn : l.neg <;> simp [Lit.pos, hn]

/-- A literal that evaluates to `False` has its negation on the trail. -/
theorem neg_mem_of_eval_false (s : Solver) (hT : TrailWF s) (l : Lit)
    (hf : s.eval l = LitBool.False) : l.not ∈ s.que := by
  have hsome : (s.levels.getD l.vidx none).isSome = true := by
    by_contra hc
    unfold Solver.eval at hf
    simp only [Bool.not_eq_true] at hc
    rw [hc] at hf
    simp at hf
  have hass : s.assings.getD l.vidx false = l.neg := by
    unfold Solver.eval at hf
    rw [hsome] at hf
    cases hn : l.neg <;> cases ha : s.assings.getD l.vidx false <;>
      rw [hn, ha] at hf <;> simp at hf
  obtain ⟨h1, _, h3⟩ := hT
  have hlt : l.vidx < s.levels.length := by
    by_contra hc
    rw [getD_oob _ _ _ (by omega)] at hsome
    simp at hsome
  obtain ⟨l2, hl2, hv⟩ := h3 l.vidx hlt hsome
  obtain ⟨_, _, _, _, hpos⟩ := h1 l2 hl2
  have he : l2 = l.not := by
    refine Lit.eq_of_vidx_pos l2 l.not ?_ ?_
    · rw [hv, Lit.vidx_not]
    · rw [Lit.pos_not, ← hpos, hv, hass]
      simp [Lit.pos]
  rw [← he]
  exact hl2

/-- Two trail literals over the same variable are equal. -/
theorem mem_que_unique (s : Solver) (hT : TrailWF s) (l1 l2 : Lit)
    (h1 : l1 ∈ s.que) (h2 : l2 ∈ s.que) (hv : l1.vidx = l2.vidx) : l1 = l2 := by
  obtain ⟨t1, _, _⟩ := hT
  obtain ⟨_, _, _, _, hp1⟩ := t1 l1 h1
  obtain ⟨_, _, _, _, hp2⟩ := t1 l2 h2
  refine Lit.eq_of_vidx_pos l1 l2 hv ?_
  rw [← hp1, ← hp2, hv]

/-- A literal with a determined value lives on a different variable than any
unassigned slot. -/
theorem vidx_ne_of_eval_det (s : Solver) (l : Lit) (v : Nat)
    (hnone : s.levels.getD v none = none)
    (hev : s.eval l ≠ LitBool.Undefine) : l.vidx ≠ v := by
  intro he
  unfold Solver.eval at hev
  rw [he, hnone] at hev
  simp at hev

theorem mem_index (l : List Lit) (x : Lit) (hx : x ∈ l) :
    ∃ q < l.length, l.getD q default = x := by
  obtain ⟨q, hq, he⟩ := List.mem_iff_getElem.mp hx
  refine ⟨q, hq, ?_⟩
  rw [List.getD_eq_getElem?_getD, List.getElem?_eq_getElem hq]
  simpa using he

/-- Rewriting a stored clause whose head does not evaluate to `True`
preserves the reason-shape invariant: such a clause is nobody's reason
(every reason's head literal sits on the trail and so evaluates `True`). -/
theorem reasonOk_store_set (s : Solver) (cr : CRef) (cl2 : Clause)
    (hT : TrailWF s) (hR : ReasonOk s)
    (hhead : ∀ hl, (s.clauseOf cr).head? = some hl → s.eval hl ≠ LitBool.True) :
    ReasonOk { s with store := s.store.set cr cl2 } := by
  intro v hv cr2 hcr2
  obtain ⟨hlt, p, hp, hvp, hhd, htl⟩ := hR v hv cr2 hcr2
  have hne : cr2 ≠ cr := by
    intro he
    refine hhead (s.que.getD p default) (he ▸ hhd) ?_
    exact eval_true_of_mem s hT _ (getD_mem _ p default hp)
  have hcc : ({ s with store := s.store.set cr cl2 } : Solver).clauseOf cr2
      = s.clauseOf cr2 := by
    unfold Solver.clauseOf
    exact getD_set_ne _ _ _ _ _ (fun heq => hne heq.symm)
  refine ⟨?_, p, hp, hvp, ?_, ?_⟩
  · show cr2 < (s.store.set cr cl2).length
    rw [List.length_set]
    exact hlt
  · rw [hcc]
    exact hhd
  · intro l' hl'
    rw [hcc] at hl'
    obtain ⟨hev, q, hq, hqe⟩ := htl l' hl'
    exact ⟨hev, q, hq, hqe⟩

theorem decision_level_eq_levAt (s : Solver) (hne : s.que ≠ []) :
    s.decision_level = levAt s (s.que.getLast hne) := by
  unfold Solver.decision_level levAt levOf
  rw [List.getLast?_eq_getLast _ hne]

/-- Core preservation lemma for a single assignment: writing level `L`
(`decision_level ≤ L ≤ decision_level + 1`, as `enqueue` and `new_decision`
do), polarity and reason for a fresh variable, and appending the literal to
the trail, preserves the length, trail, level-chain and reason-shape
invariants — provided the reason (if any) is a stored clause carrying the
literal at position 0 and only `False` literals after it. -/
theorem assign_inv (s : Solver) (lit : Lit) (reason : Option CRef) (L : Int)
    (hL1 : s.decision_level ≤ L) (hL2 : L ≤ s.decision_level + 1)
    (hfresh : s.levels.getD lit.vidx none = none)
    (hb : lit.vidx < s.assings.length)
    (hlen : LenOk s) (hT : TrailWF s) (hC : LevelChain s) (hR : ReasonOk s)
    (hr : ∀ cr ∈ reason, cr < s.store.length ∧
      (s.clauseOf cr).head? = some lit ∧
      ∀ l' ∈ (s.clauseOf cr).drop 1, s.eval l' = LitBool.False) :
    ∀ t : Solver,
    t.levels = s.levels.set lit.vidx (some L) →
    t.assings = s.assings.set lit.vidx lit.pos →
    t.reasons = s.reasons.set lit.vidx reason →
    t.que = s.que ++ [lit] →
    t.store = s.store →
    t.watchers = s.watchers →
    LenOk t ∧ TrailWF t ∧ LevelChain t ∧ ReasonOk t := by
  intro t hlv has hrs hq hst hwt
  obtain ⟨hKlv, hKrs, hKw⟩ := hlen
  have hblv : lit.vidx < s.levels.length := by omega
  have hbrs : lit.vidx < s.reasons.length := by omega
  have hnotin : ∀ l ∈ s.que, l.vidx ≠ lit.vidx := by
    intro l hl he
    have hsome := (hT.1 l hl).2.2.2.1
    unfold levOf at hsome
    rw [he, hfresh] at hsome
    simp at hsome
  have hlvD : ∀ l ∈ s.que,
      t.levels.getD l.vidx none = s.levels.getD l.vidx none := by
    intro l hl
    rw [hlv]
    exact getD_set_ne _ _ _ _ _ (fun he => hnotin l hl he.symm)
  have hasD : ∀ l ∈ s.que,
      t.assings.getD l.vidx false = s.assings.getD l.vidx false := by
    intro l hl
    rw [has]
    exact getD_set_ne _ _ _ _ _ (fun he => hnotin l hl he.symm)
  have hrsD : ∀ v, v ≠ lit.vidx →
      t.reasons.getD v none = s.reasons.getD v none := by
    intro v hv
    rw [hrs]
    exact getD_set_ne _ _ _ _ _ (fun he => hv he.symm)
  have hlvD2 : ∀ v, v ≠ lit.vidx →
      t.levels.getD v none = s.levels.getD v none := by
    intro v hv
    rw [hlv]
    exact getD_set_ne _ _ _ _ _ (fun he => hv he.symm)
  have hlself : t.levels.getD lit.vidx none = some L := by
    rw [hlv]
    exact getD_set_self _ _ _ _ hblv
  have haself : t.assings.getD lit.vidx false = lit.pos := by
    rw [has]
    exact getD_set_self _ _ _ _ hb
  have hevalD : ∀ l : Lit, s.eval l ≠ LitBool.Undefine → t.eval l = s.eval l := by
    intro l hev
    have hne := vidx_ne_of_eval_det s l lit.vidx hfresh hev
    refine eval_congr s t l (hlvD2 l.vidx hne) ?_
    rw [has]
    exact getD_set_ne _ _ _ _ _ (fun he => hne he.symm)
  have hclq : ∀ cr2, t.clauseOf cr2 = s.clauseOf cr2 := by
    intro cr2
    unfold Solver.clauseOf
    rw [hst]
  refine ⟨⟨?_, ?_, ?_⟩, ⟨?_, ?_, ?_⟩, ⟨?_, ?_⟩, ?_⟩
  · rw [hlv, has, List.length_set, List.length_set]
    exact hKlv
  · rw [hrs, has, List.length_set, List.length_set]
    exact hKrs
  · rw [hwt, has, List.length_set]
    exact hKw
  · intro l hl
    rw [hq] at hl
    rcases List.mem_append.mp hl with hold | hnew
    · obtain ⟨b1, b2, b3, b4, b5⟩ := hT.1 l hold
      refine ⟨?_, ?_, ?_, ?_, ?_⟩
      · rw [hlv, List.length_set]
        exact b1
      · rw [hrs, List.length_set]
        exact b2
      · rw [has, List.length_set]
        exact b3
      · show (levOf t l).isSome
        unfold levOf
        rw [hlvD l hold]
        exact b4
      · rw [hasD l hold]
        exact b5
    · have he : l = lit := by simpa using hnew
      subst he
      refine ⟨?_, ?_, ?_, ?_, ?_⟩
      · rw [hlv, List.length_set]
        exact hblv
      · rw [hrs, List.length_set]
        exact hbrs
      · rw [has, List.length_set]
        exact hb
      · show (levOf t l).isSome
        unfold levOf
        rw [hlself]
        simp
      · exact haself
  · rw [hq, List.map_append, List.nodup_append]
    refine ⟨hT.2.1, by simp, ?_⟩
    intro a ha hb2
    simp at hb2
    obtain ⟨l0, hl0, hv0⟩ := List.mem_map.mp ha
    exact hnotin l0 hl0 (by rw [hv0, hb2])
  · intro v hv hvs
    by_cases hvl : v = lit.vidx
    · exact ⟨lit, by rw [hq]; simp, hvl.symm⟩
    · rw [hlvD2 v hvl] at hvs
      have hvlen : v < s.levels.length := by
        rw [hlv, List.length_set] at hv
        exact hv
      obtain ⟨l0, hl0, he0⟩ := hT.2.2 v hvlen hvs
      exact ⟨l0, by rw [hq]; exact List.mem_append.mpr (Or.inl hl0), he0⟩
  · have hlevAtD : ∀ l ∈ s.que, levAt t l = levAt s l := by
      intro l hl
      unfold levAt levOf
      rw [hlvD l hl]
    have hlevAtLit : levAt t lit = L := by
      unfold levAt levOf
      rw [hlself]
      rfl
    have hmapq : t.que.map (levAt t) = s.que.map (levAt s) ++ [L] := by
      rw [hq, List.map_append]
      congr 1
      · exact List.map_congr_left hlevAtD
      · simp [hlevAtLit]
    rw [hmapq, List.chain'_append]
    refine ⟨hC.1, by simp, ?_⟩
    intro x hx y hy
    simp only [List.head?_cons, Option.mem_def, Option.some.injEq] at hy
    subst hy
    have hne2 : s.que ≠ [] := by
      intro hcq
      rw [hcq] at hx
      simp at hx
    rw [List.getLast?_map] at hx
    rw [List.getLast?_eq_getLast _ hne2] at hx
    have hx2 : levAt s (s.que.getLast hne2) = x := by simpa using hx
    have hdl := decision_level_eq_levAt s hne2
    constructor
    · rw [← hx2, ← hdl]
      exact hL1
    · rw [← hx2, ← hdl]
      exact hL2
  · rw [hq]
    cases hq0 : s.que with
    | nil =>
      intro l hl
      simp at hl
      subst hl
      have hdl0 : s.decision_level = 0 := by
        unfold Solver.decision_level
        rw [hq0]
        rfl
      unfold levAt levOf
      rw [hlself]
      simp only [Option.getD_some]
      omega
    | cons a rest =>
      intro l hl
      have hla : l = a := by
        simp at hl
        exact hl
      subst hla
      have hmem : l ∈ s.que := by
        rw [hq0]
        exact List.mem_cons_self l rest
      have ha2 := hC.2 l (by rw [hq0]; simp)
      unfold levAt levOf
      rw [hlvD l hmem]
      exact ha2
  · intro v hv cr2 hcr2
    by_cases hvl : v = lit.vidx
    · subst hvl
      rw [hrs, getD_set_self _ _ _ _ hbrs] at hcr2
      obtain ⟨hcrst, hhd, htl⟩ := hr cr2 hcr2
      refine ⟨by rw [hst]; exact hcrst, s.que.length, ?_, ?_, ?_, ?_⟩
      · rw [hq]
        simp
      · rw [hq, getD_concat_length]
      · rw [hclq cr2, hq, getD_concat_length]
        exact hhd
      · intro l' hl'
        rw [hclq cr2] at hl'
        have hev := htl l' hl'
        refine ⟨by rw [hevalD l' (by rw [hev]; simp)]; exact hev, ?_⟩
        obtain ⟨q, hq2, he2⟩ :=
          mem_index s.que l'.not (neg_mem_of_eval_false s hT l' hev)
        refine ⟨q, by omega, ?_⟩
        rw [hq, getD_append_left _ _ _ _ hq2]
        exact he2
    · rw [hrsD v hvl] at hcr2
      have hvlen : v < s.reasons.length := by
        rw [hrs, List.length_set] at hv
        exact hv
      obtain ⟨hcrst, p, hp, hvp, hhd, htl⟩ := hR v hvlen cr2 hcr2
      refine ⟨by rw [hst]; exact hcrst, p, ?_, ?_, ?_, ?_⟩
      · rw [hq]
        simp
        omega
      · rw [hq, getD_append_left _ _ _ _ hp]
        exact hvp
      · rw [hclq cr2, hq, getD_append_left _ _ _ _ hp]
        exact hhd
      · intro l' hl'
        rw [hclq cr2] at hl'
        obtain ⟨hev, q, hq2, hqe⟩ := htl l' hl'
        refine ⟨by rw [hevalD l' (by rw [hev]; simp)]; exact hev, q, hq2, ?_⟩
        rw [hq, getD_append_left _ _ _ _ (by omega)]
        exact hqe

/-- The post-normalization part of an inner propagate iteration preserves
the combined invariant, and keeps the propagated literal `True`. -/
theorem propCheckBody_inv (lit : Lit) (cr : CRef) (i : Nat) (s1 : Solver)
    (first w1 : Lit) (crest : List Lit) (res : InnerRes)
    (hcr : (s1.watchers.getD lit.lidx []).getD i 0 = cr)
    (hi : i < (s1.watchers.getD lit.lidx []).length)
    (hcl1 : s1.clauseOf cr = first :: w1 :: crest)
    (hInv : Inv s1)
    (heval : s1.eval lit = LitBool.True)
    (h : propCheckBody lit cr i s1 first w1 crest = .ok res) :
    Inv res.state ∧ res.state.eval lit = LitBool.True := by
  obtain ⟨hLen, hT, hC, hW, hR⟩ := hInv
  have hWres : WatchInv res.state :=
    propCheckBody_watch lit cr i s1 first w1 crest res hcr hi hcl1 hW h
  simp only [propCheckBody] at h
  by_cases hc1 : w1 = lit.not ∧ s1.eval w1 = LitBool.False
  · rw [if_pos hc1] at h
    by_cases hT1 : s1.eval first = LitBool.True
    · rw [if_pos hT1] at h
      injection h with h
      rw [← h]
      exact ⟨⟨hLen, hT, hC, hW, hR⟩, heval⟩
    · rw [if_neg hT1] at h
      cases hfind : findNonFalse s1 (first :: w1 :: crest) 2 with
      | some k =>
        simp only [hfind] at h
        injection h with h
        rw [← h]
        rw [← h] at hWres
        have hhead : ∀ hl, (s1.clauseOf cr).head? = some hl →
            s1.eval hl ≠ LitBool.True := by
          intro hl hhl
          rw [hcl1] at hhl
          simp only [List.head?_cons, Option.some.injEq] at hhl
          rw [← hhl]
          exact hT1
        have hRu := reasonOk_store_set s1 cr
          (swapIdx (first :: w1 :: crest) 1 k default) hT hR hhead
        refine ⟨⟨?_, ?_, ?_, hWres, ?_⟩, heval⟩
        · exact lenOk_congr s1 _ rfl rfl rfl (by simp [InnerRes.state]) hLen
        · exact trailWF_congr s1 _ rfl rfl rfl rfl hT
        · exact levelChain_congr s1 _ rfl rfl hC
        · exact reasonOk_congr _ _ rfl rfl rfl rfl rfl hRu
      | none =>
        simp only [hfind] at h
        by_cases hF : s1.eval first = LitBool.False
        · rw [if_pos hF] at h
          injection h with h
          rw [← h]
          rw [← h] at hWres
          refine ⟨⟨?_, ?_, ?_, hWres, ?_⟩, heval⟩
          · exact lenOk_congr s1 _ rfl rfl rfl rfl hLen
          · exact trailWF_congr s1 _ rfl rfl rfl rfl hT
          · exact levelChain_congr s1 _ rfl rfl hC
          · exact reasonOk_congr s1 _ rfl rfl rfl rfl rfl hR
        · rw [if_neg hF] at h
          by_cases hU : s1.eval first = LitBool.Undefine
          · rw [if_pos hU] at h
            cases henq : s1.enqueue first (some cr) with
            | error e =>
              simp only [henq] at h
              exact absurd h (by simp)
            | ok s2 =>
              simp only [henq] at h
              injection h with h
              rw [← h]
              rw [← h] at hWres
              obtain ⟨hfresh, he⟩ := enqueue_eq_of_ok s1 s2 first (some cr) henq
              have hm := watch_cr_mem s1 lit i hi hW
              rw [hcr] at hm
              have hfmem : first ∈ s1.store.getD cr [] := by
                have hc2 : s1.store.getD cr [] = first :: w1 :: crest := hcl1
                rw [hc2]
                simp
              have hfb := ((hW.1 cr hm.2.1).2.2.1 first hfmem).1
              have hKw := hLen.2.2
              have hbfst : first.vidx < s1.assings.length :=
                Lit.vidx_lt first s1.assings.length (by omega)
              have hrcond : ∀ cr2 ∈ (some cr : Option CRef),
                  cr2 < s1.store.length ∧
                  (s1.clauseOf cr2).head? = some first ∧
                  ∀ l' ∈ (s1.clauseOf cr2).drop 1,
                    s1.eval l' = LitBool.False := by
                intro cr2 hcr2
                have hc2 : cr = cr2 := by simpa using hcr2
                rw [← hc2]
                refine ⟨hm.2.2, ?_, ?_⟩
                · rw [hcl1]
                  rfl
                · intro l' hl'
                  rw [hcl1] at hl'
                  have hl2 : l' = w1 ∨ l' ∈ crest := by simpa using hl'
                  rcases hl2 with he2 | he2
                  · rw [he2]
                    exact hc1.2
                  · obtain ⟨j, hj, hje⟩ := mem_index crest l' he2
                    have hFk := findNonFalse_none s1 (first :: w1 :: crest) 2
                      hfind (j + 2) (by omega) (by simp; omega)
                    have hgd : (first :: w1 :: crest).getD (j + 2) default
                        = crest.getD j default := rfl
                    rw [hgd, hje] at hFk
                    exact hFk
              have hparts := assign_inv s1 first (some cr) s1.decision_level
                (le_refl _) (by omega) hfresh hbfst hLen hT hC hR hrcond s2
                (by rw [he]) (by rw [he]) (by rw [he]) (by rw [he])
                (by rw [he]) (by rw [he])
              obtain ⟨hL2', hT2, hC2, hR2⟩ := hparts
              refine ⟨⟨hL2', hT2, hC2, hWres, hR2⟩, ?_⟩
              show s2.eval lit = LitBool.True
              have hne := vidx_ne_of_eval_det s1 lit first.vidx hfresh
                (by rw [heval]; simp)
              have hst : s2.eval lit = s1.eval lit := by
                refine eval_congr s1 s2 lit ?_ ?_
                · rw [he]
                  exact getD_set_ne _ _ _ _ _ (fun he2 => hne he2.symm)
                · rw [he]
                  exact getD_set_ne _ _ _ _ _ (fun he2 => hne he2.symm)
              rw [hst]
              exact heval
          · rw [if_neg hU] at h
            exact absurd h (by simp)
  · rw [if_neg hc1] at h
    exact absurd h (by simp)

/-- One inner propagate iteration preserves the combined invariant, and
keeps the propagated literal `True`. -/
theorem propCheck_inv (lit : Lit) (s : Solver) (i : Nat) (res : InnerRes)
    (h : propCheck lit s i = .ok res)
    (hi : i < (s.watchers.getD lit.lidx []).length)
    (hInv : Inv s)
    (heval : s.eval lit = LitBool.True) :
    Inv res.state ∧ res.state.eval lit = LitBool.True := by
  obtain ⟨hLen, hT, hC, hW, hR⟩ := hInv
  obtain ⟨hlidx, hcrcs, hcrst⟩ := watch_cr_mem s lit i hi hW
  simp only [propCheck] at h
  cases hcl : s.clauseOf ((s.watchers.getD lit.lidx []).getD i 0) with
  | nil =>
    simp only [hcl] at h
    exact absurd h (by simp)
  | cons c0 cl1 =>
    cases cl1 with
    | nil =>
      simp only [hcl] at h
      exact absurd h (by simp)
    | cons c1 crest =>
      simp only [hcl] at h
      by_cases hor : c0 = lit.not ∨ c1 = lit.not
      · rw [if_pos hor] at h
        by_cases hc0 : c0 = lit.not
        · simp only [if_pos hc0] at h
          have hhead : ∀ hl,
              (s.clauseOf ((s.watchers.getD lit.lidx []).getD i 0)).head?
                = some hl → s.eval hl ≠ LitBool.True := by
            intro hl hhl
            rw [hcl] at hhl
            simp only [List.head?_cons, Option.some.injEq] at hhl
            rw [← hhl, hc0, Solver.eval_not, heval]
            simp
          refine propCheckBody_inv lit ((s.watchers.getD lit.lidx []).getD i 0)
            i _ c1 c0 crest res ?_ ?_ ?_ ?_ ?_ h
          · exact rfl
          · exact hi
          · exact getD_set_self _ _ _ _ hcrst
          · exact ⟨lenOk_congr s _ rfl rfl rfl rfl hLen,
              trailWF_congr s _ rfl rfl rfl rfl hT,
              levelChain_congr s _ rfl rfl hC,
              watch_norm s _ c0 c1 crest hW hcrcs hcl,
              reasonOk_store_set s _ (c1 :: c0 :: crest) hT hR hhead⟩
          · exact heval
        · simp only [if_neg hc0] at h
          exact propCheckBody_inv lit _ i s c0 c1 crest res rfl hi hcl
            ⟨hLen, hT, hC, hW, hR⟩ heval h
      · rw [if_neg hor] at h
        exact absurd h (by simp)

/-- The inner watcher-list loop preserves the combined invariant and keeps
the propagated literal `True`. -/
theorem propInner_inv (lit : Lit) :
    ∀ (fuel : Nat) (s : Solver) (i : Nat) (s2 : Solver) (r : Option CRef),
    propInner lit fuel s i = .ok (s2, r) → Inv s →
    s.eval lit = LitBool.True → Inv s2 := by
  intro fuel
  induction fuel with
  | zero =>
    intro s i s2 r h hInv heval
    simp [propInner] at h
  | succ fuel ih =>
    intro s i s2 r h hInv heval
    simp only [propInner] at h
    by_cases hi : i < (s.watchers.getD lit.lidx []).length
    · rw [if_pos hi] at h
      cases hpc : propCheck lit s i with
      | error e =>
        simp only [hpc] at h
        exact absurd h (by simp)
      | ok ir =>
        have hr := propCheck_inv lit s i ir hpc hi hInv heval
        cases ir with
        | keep s1 =>
          simp only [hpc] at h
          exact ih s1 (i + 1) s2 r h hr.1 hr.2
        | moved s1 =>
          simp only [hpc] at h
          exact ih s1 i s2 r h hr.1 hr.2
        | conflict s1 cr =>
          simp only [hpc] at h
          injection h with h
          have h2 : s1 = s2 := congrArg Prod.fst h
          rw [← h2]
          exact hr.1
    · rw [if_neg hi] at h
      injection h with h
      have h2 : s = s2 := congrArg Prod.fst h
      rw [← h2]
      exact hInv

/-- The outer propagate loop preserves the combined invariant. -/
theorem propOuter_inv :
    ∀ (fuel : Nat) (s s2 : Solver) (r : Option CRef),
    propOuter fuel s = .ok (s2, r) → Inv s → Inv s2 := by
  intro fuel
  induction fuel with
  | zero =>
    intro s s2 r h hInv
    simp [propOuter] at h
  | succ fuel ih =>
    intro s s2 r h hInv
    simp only [propOuter] at h
    by_cases hq : s.que_head < s.que.length
    · rw [if_pos hq] at h
      have hmemlit : s.que.getD s.que_head default ∈ s.que :=
        getD_mem _ _ _ hq
      have heval : s.eval (s.que.getD s.que_head default) = LitBool.True :=
        eval_true_of_mem s hInv.2.1 _ hmemlit
      have hInv1 : Inv { s with que_head := s.que_head + 1 } := by
        obtain ⟨hLen, hT, hC, hW, hR⟩ := hInv
        exact ⟨lenOk_congr s _ rfl rfl rfl rfl hLen,
          trailWF_congr s _ rfl rfl rfl rfl hT,
          levelChain_congr s _ rfl rfl hC,
          watchInv_congr s _ rfl rfl rfl hW,
          reasonOk_congr s _ rfl rfl rfl rfl rfl hR⟩
      cases hpi : propInner (s.que.getD s.que_head default) (fuel + 1)
          { s with que_head := s.que_head + 1 } 0 with
      | error e =>
        simp only [hpi] at h
        exact absurd h (by simp)
      | ok pr =>
        obtain ⟨s3, r3⟩ := pr
        have hInv3 : Inv s3 :=
          propInner_inv _ _ _ _ _ _ hpi hInv1 heval
        cases r3 with
        | some cr =>
          simp only [hpi] at h
          injection h with h
          have h2 : s3 = s2 := congrArg Prod.fst h
          rw [← h2]
          exact hInv3
        | none =>
          simp only [hpi] at h
          exact ih s3 s2 r h hInv3
    · rw [if_neg hq] at h
      injection h with h
      have h2 : s = s2 := congrArg Prod.fst h
      rw [← h2]
      exact hInv

/-- A filter whose predicate is downward closed along positions keeps
exactly a prefix of the list, and every surviving index is below the
prefix length. -/
theorem filter_take_spec {α} (p : α → Bool) (d : α) :
    ∀ (l : List α),
    (∀ i j, i ≤ j → j < l.length → p (l.getD j d) = true →
      p (l.getD i d) = true) →
    l.filter p = l.take (l.filter p).length ∧
    ∀ j < l.length, p (l.getD j d) = true → j < (l.filter p).length := by
  intro l
  induction l with
  | nil =>
    intro _
    simp
  | cons a rest ih =>
    intro hcl
    by_cases ha : p a = true
    · have hcl2 : ∀ i j, i ≤ j → j < rest.length → p (rest.getD j d) = true →
          p (rest.getD i d) = true := by
        intro i j hij hj hp2
        have := hcl (i + 1) (j + 1) (by omega) (by simp; omega)
          (by simpa using hp2)
        simpa using this
      obtain ⟨ih1, ih2⟩ := ih hcl2
      have hfa : (a :: rest).filter p = a :: rest.filter p := by
        rw [List.filter_cons, if_pos ha]
      constructor
      · rw [hfa]
        simp only [List.length_cons, List.take_succ_cons]
        rw [← ih1]
      · intro j hj hp2
        rw [hfa]
        cases j with
        | zero => simp
        | succ j2 =>
          have := ih2 j2 (by simpa using hj) (by simpa using hp2)
          simp only [List.length_cons]
          omega
    · have hall : ∀ j < (a :: rest).length, p ((a :: rest).getD j d) = false := by
        intro j hj
        by_contra hc
        have hpj : p ((a :: rest).getD j d) = true := by
          revert hc
          cases p ((a :: rest).getD j d) <;> simp
        have := hcl 0 j (by omega) hj hpj
        rw [show (a :: rest).getD 0 d = a from rfl] at this
        rw [this] at ha
        exact ha rfl
      have hnil : (a :: rest).filter p = [] := by
        rw [List.filter_eq_nil_iff]
        intro x hx
        obtain ⟨j, hj, hje⟩ := List.mem_iff_getElem.mp hx
        have := hall j hj
        rw [List.getD_eq_getElem?_getD, List.getElem?_eq_getElem hj] at this
        simp only [Option.getD_some] at this
        rw [hje] at this
        simp [this]
      constructor
      · rw [hnil]
        rfl
      · intro j hj hp2
        have := hall j hj
        rw [this] at hp2
        exact absurd hp2 (by simp)

theorem getD_take {α} (l : List α) (m q : Nat) (d : α) (h : q < m) :
    (l.take m).getD q d = l.getD q d := by
  rw [List.getD_eq_getElem?_getD, List.getD_eq_getElem?_getD,
    List.getElem?_take, if_pos h]

/-- The pop loop never invents a reason: each slot is cleared or kept. -/
theorem popRev_reasons_cases (b : Int) :
    ∀ (q : List Lit) (lv : List (Option Int)) (rs : List (Option CRef)) (v : Nat),
    (popRev b lv rs q).2.1.getD v none = none ∨
    (popRev b lv rs q).2.1.getD v none = rs.getD v none := by
  intro q
  induction q with
  | nil =>
    intro lv rs v
    right
    simp [popRev]
  | cons l rest ih =>
    intro lv rs v
    by_cases hgt : optGtB (lv.getD l.vidx none) b = true
    · have hrw : popRev b lv rs (l :: rest)
          = popRev b (lv.set l.vidx none) (rs.set l.vidx none) rest := by
        simp only [popRev]
        rw [hgt]
        simp
      rw [hrw]
      rcases ih (lv.set l.vidx none) (rs.set l.vidx none) v with hc | hc
      · left
        exact hc
      · rw [hc]
        by_cases hv : l.vidx = v
        · subst hv
          by_cases hlt : l.vidx < rs.length
          · left
            exact getD_set_self _ _ _ _ hlt
          · left
            exact getD_oob _ _ _ (by rw [List.length_set]; omega)
        · right
          exact getD_set_ne _ _ _ _ _ hv
    · have hgt2 : optGtB (lv.getD l.vidx none) b = false := by
        revert hgt
        cases optGtB (lv.getD l.vidx none) b <;> simp
      have hrw : popRev b lv rs (l :: rest) = (lv, rs, l :: rest) := by
        simp only [popRev]
        rw [hgt2]
        simp
      rw [hrw]
      right
      rfl

theorem popLoop_reasons_cases (s : Solver) (b : Int) (v : Nat) :
    (popLoop s b).reasons.getD v none = none ∨
    (popLoop s b).reasons.getD v none = s.reasons.getD v none := by
  have hcases := popRev_reasons_cases b s.que.reverse s.levels s.reasons v
  unfold popLoop
  rcases hpr : popRev b s.levels s.reasons s.que.reverse with ⟨lv, rs, qr⟩
  rw [hpr] at hcases
  exact hcases

/-- `pop_queue_until` preserves the combined invariant: the surviving trail
is the prefix of entries at level ≤ b, their per-variable data is
untouched, the popped variables lose level and reason, and every kept
reason's trail positions and `False` tails are still in place. -/
theorem backjump_inv (s : Solver) (b : Int) (s' : Solver)
    (h : s.pop_queue_until b = .ok s')
    (hInv : Inv s) : Inv s' := by
  obtain ⟨hLen, hT, hC, hW, hR⟩ := hInv
  have hsome : ∀ l ∈ s.que, (s.levels.getD l.vidx none).isSome :=
    fun l hl => (hT.1 l hl).2.2.2.1
  obtain ⟨hqf, hlen1, hlen2, hclear, hkeep, hnonecase, hass, hwat, hcls,
    hlrn, hstr, hqh⟩ := popLoop_spec s b hT.2.1 hsome hC.1
  unfold Solver.pop_queue_until at h
  by_cases hemp : s.que.isEmpty
  · rw [if_pos hemp] at h
    exact absurd h (by simp)
  · rw [if_neg hemp] at h
    injection h with h
    have hq' : s'.que = (popLoop s b).que := by rw [← h]
    have hlv' : s'.levels = (popLoop s b).levels := by rw [← h]
    have hrs' : s'.reasons = (popLoop s b).reasons := by rw [← h]
    have has' : s'.assings = s.assings := by rw [← h]; exact hass
    have hwt' : s'.watchers = s.watchers := by rw [← h]; exact hwat
    have hst' : s'.store = s.store := by rw [← h]; exact hstr
    have hcl' : s'.clauses = s.clauses := by rw [← h]; exact hcls
    have hqf2 : (popLoop s b).que = s.que.filter (keepB s b) := hqf
    have hmono : ∀ i j, i ≤ j → j < s.que.length →
        keepB s b (s.que.getD j default) = true →
        keepB s b (s.que.getD i default) = true := by
      intro i j hij hj hpj
      by_cases hieq : i = j
      · rw [hieq]
        exact hpj
      · have hi : i < s.que.length := by omega
        have hmi := getD_mem s.que i default hi
        have hmj := getD_mem s.que j default hj
        obtain ⟨ai, hai⟩ := Option.isSome_iff_exists.mp (hsome _ hmi)
        obtain ⟨aj, haj⟩ := Option.isSome_iff_exists.mp (hsome _ hmj)
        have hch : List.Chain' (· ≤ ·) (s.que.map (levAt s)) :=
          List.Chain'.imp (fun a c hac => hac.1) hC.1
        have hpw := List.chain'_iff_pairwise.mp hch
        have hgl := List.pairwise_iff_getElem.mp hpw i j
          (by simpa using hi) (by simpa using hj) (by omega)
        simp only [List.getElem_map] at hgl
        have hgdi : s.que.getD i default = s.que[i] := by
          rw [List.getD_eq_getElem?_getD, List.getElem?_eq_getElem hi]
          rfl
        have hgdj : s.que.getD j default = s.que[j] := by
          rw [List.getD_eq_getElem?_getD, List.getElem?_eq_getElem hj]
          rfl
        rw [← hgdi, ← hgdj] at hgl
        unfold levAt levOf at hgl
        rw [hai, haj] at hgl
        simp only [Option.getD_some] at hgl
        unfold keepB at hpj ⊢
        rw [haj] at hpj
        rw [hai]
        simp only [optGtB] at hpj ⊢
        simp at hpj ⊢
        omega
    obtain ⟨htake, hsurv⟩ := filter_take_spec (keepB s b) default s.que hmono
    have hkept : ∀ l ∈ s.que, keepB s b l = true →
        s'.levels.getD l.vidx none = s.levels.getD l.vidx none ∧
        s'.reasons.getD l.vidx none = s.reasons.getD l.vidx none := by
      intro l hl hkp
      have hall : ∀ l2 ∈ s.que, l2.vidx = l.vidx →
          optGtB (s.levels.getD l2.vidx none) b = false := by
        intro l2 hl2 hv2
        have heq : l2 = l := mem_que_unique s hT l2 l hl2 hl hv2
        rw [heq]
        unfold keepB at hkp
        revert hkp
        cases optGtB (s.levels.getD l.vidx none) b <;> simp
      have hkc := hkeep l.vidx hall
      rw [hlv', hrs']
      exact hkc
    refine ⟨?_, ⟨?_, ?_, ?_⟩, ⟨?_, ?_⟩, ?_, ?_⟩
    · exact lenOk_congr s s' (by rw [hlv']; exact hlen1)
        (by rw [hrs']; exact hlen2) (by rw [has']) (by rw [hwt']) hLen
    · intro l hl
      rw [hq', hqf2] at hl
      obtain ⟨hlq, hlp⟩ := List.mem_filter.mp hl
      obtain ⟨b1, b2, b3, b4, b5⟩ := hT.1 l hlq
      obtain ⟨hkl, _⟩ := hkept l hlq hlp
      refine ⟨?_, ?_, ?_, ?_, ?_⟩
      · rw [hlv', hlen1]
        exact b1
      · rw [hrs', hlen2]
        exact b2
      · rw [has']
        exact b3
      · show (levOf s' l).isSome
        unfold levOf
        rw [hkl]
        exact b4
      · rw [has']
        exact b5
    · rw [hq', hqf2]
      refine List.Nodup.sublist ?_ hT.2.1
      exact List.Sublist.map _ (List.filter_sublist _)
    · intro v hv hvs
      rw [hlv'] at hvs
      rcases hnonecase v with hcn | hcn
      · rw [hcn] at hvs
        simp at hvs
      · rw [hcn] at hvs
        have hvlen : v < s.levels.length := by
          rw [hlv', hlen1] at hv
          exact hv
        obtain ⟨l0, hl0, hv0⟩ := hT.2.2 v hvlen hvs
        refine ⟨l0, ?_, hv0⟩
        rw [hq', hqf2]
        refine List.mem_filter.mpr ⟨hl0, ?_⟩
        by_contra hkb
        have hgt : optGtB (s.levels.getD l0.vidx none) b = true := by
          unfold keepB at hkb
          revert hkb
          cases optGtB (s.levels.getD l0.vidx none) b <;> simp
        have hclr := (hclear l0 hl0 hgt).1
        rw [hv0, hcn] at hclr
        rw [hclr] at hvs
        simp at hvs
    · have hmapcongr : s'.que.map (levAt s') = s'.que.map (levAt s) := by
        refine List.map_congr_left ?_
        intro l hl
        rw [hq', hqf2] at hl
        obtain ⟨hlq, hlp⟩ := List.mem_filter.mp hl
        obtain ⟨hkl, _⟩ := hkept l hlq hlp
        unfold levAt levOf
        rw [hkl]
      rw [hmapcongr, hq', hqf2, htake, List.map_take]
      exact hC.1.take _
    · intro l hl0
      have hmem' : l ∈ s'.que := List.mem_of_mem_take hl0
      have hl1 : l ∈ s.que.take 1 := by
        have hl2 := hl0
        rw [hq', hqf2, htake, List.take_take] at hl2
        by_cases hM : (s.que.filter (keepB s b)).length = 0
        · rw [hM] at hl2
          simp at hl2
        · have hmin : min 1 (s.que.filter (keepB s b)).length = 1 := by omega
          rw [hmin] at hl2
          exact hl2
      have hmf : l ∈ s.que.filter (keepB s b) := by
        rw [hq', hqf2] at hmem'
        exact hmem'
      obtain ⟨hlq2, hlp⟩ := List.mem_filter.mp hmf
      obtain ⟨hkl, _⟩ := hkept l hlq2 hlp
      show levAt s' l ≤ 1
      unfold levAt levOf
      rw [hkl]
      exact hC.2 l hl1
    · exact watchInv_congr s s' hst' hwt' hcl' hW
    · intro v hv cr2 hcr2
      rcases popLoop_reasons_cases s b v with hcs | hcs
      · rw [hrs', hcs] at hcr2
        simp at hcr2
      · rw [hrs', hcs] at hcr2
        have hvlen : v < s.reasons.length := by
          rw [hrs', hlen2] at hv
          exact hv
        obtain ⟨hcrst, p, hp, hvp, hhd, htl⟩ := hR v hvlen cr2 hcr2
        have hmemp : s.que.getD p default ∈ s.que := getD_mem _ _ _ hp
        have hkp : keepB s b (s.que.getD p default) = true := by
          by_contra hkb
          have hgt : optGtB
              (s.levels.getD (s.que.getD p default).vidx none) b = true := by
            unfold keepB at hkb
            revert hkb
            cases optGtB (s.levels.getD (s.que.getD p default).vidx none) b <;>
              simp
          have hcl2 := (hclear _ hmemp hgt).2
          rw [hvp] at hcl2
          rw [hcl2] at hcs
          rw [← hcs] at hcr2
          simp at hcr2
        have hpm := hsurv p hp hkp
        have hclq2 : s'.clauseOf cr2 = s.clauseOf cr2 := by
          unfold Solver.clauseOf
          rw [hst']
        have hqlen : s'.que.length = (s.que.filter (keepB s b)).length := by
          rw [hq', hqf2]
        have hgetp : s'.que.getD p default = s.que.getD p default := by
          rw [hq', hqf2, htake]
          exact getD_take _ _ _ _ hpm
        refine ⟨by rw [hst']; exact hcrst, p, ?_, ?_, ?_, ?_⟩
        · rw [hqlen]
          exact hpm
        · rw [hgetp]
          exact hvp
        · rw [hclq2, hgetp]
          exact hhd
        · intro l' hl'
          rw [hclq2] at hl'
          obtain ⟨hev, q, hq2, hqe⟩ := htl l' hl'
          have hq3 : q < s.que.length := by omega
          have hkq : keepB s b (s.que.getD q default) = true :=
            hmono q p hq2 hp hkp
          have hqm := hsurv q hq3 hkq
          have hgetq : s'.que.getD q default = s.que.getD q default := by
            rw [hq', hqf2, htake]
            exact getD_take _ _ _ _ hqm
          refine ⟨?_, q, hq2, by rw [hgetq]; exact hqe⟩
          have hmemq : s.que.getD q default ∈ s.que := getD_mem _ _ _ hq3
          have hkl := (hkept _ hmemq hkq).1
          have hv2 : (s.que.getD q default).vidx = l'.vidx := by
            rw [hqe, Lit.vidx_not]
          rw [hv2] at hkl
          have hevc : s'.eval l' = s.eval l' := by
            refine eval_congr s s' l' hkl ?_
            rw [has']
          rw [hevc]
          exact hev

/-- `new_decision` (enqueue plus level bump) preserves the combined
invariant. -/
theorem decision_inv (s : Solver) (lit : Lit) (s' : Solver)
    (hb : lit.vidx < s.assings.length)
    (h : s.new_decision lit none = .ok s')
    (hInv : Inv s) : Inv s' := by
  obtain ⟨hLen, hT, hC, hW, hR⟩ := hInv
  unfold Solver.new_decision at h
  cases henq : s.enqueue lit none with
  | error e =>
    simp only [henq] at h
    exact absurd h (by simp)
  | ok t =>
    simp only [henq] at h
    obtain ⟨hfresh, he⟩ := enqueue_eq_of_ok s t lit none henq
    have hblv : lit.vidx < s.levels.length := by
      have h1 := hLen.1
      omega
    have htlv : t.levels.getD lit.vidx none = some s.decision_level := by
      rw [he]
      exact getD_set_self _ _ _ _ hblv
    simp only [htlv] at h
    injection h with h
    have hparts := assign_inv s lit none (s.decision_level + 1) (by omega)
      (by omega) hfresh hb hLen hT hC hR (by intro cr hcr; simp at hcr) s'
      (by rw [← h, he]; exact List.set_set _ _ _ _)
      (by rw [← h, he]) (by rw [← h, he]) (by rw [← h, he])
      (by rw [← h, he]) (by rw [← h, he])
    exact ⟨hparts.1, hparts.2.1, hparts.2.2.1,
      watchInv_congr s s' (by rw [← h, he]) (by rw [← h, he])
        (by rw [← h, he]) hW, hparts.2.2.2⟩

instance optionBallDec {α} (o : Option α) (p : α → Prop) [DecidablePred p] :
    Decidable (∀ a ∈ o, p a) :=
  match o with
  | none => isTrue (by simp)
  | some x => decidable_of_iff (p x) (by simp)

instance lenOkDec (s : Solver) : Decidable (LenOk s) := by
  unfold LenOk
  infer_instance

instance trailWFDec (s : Solver) : Decidable (TrailWF s) := by
  unfold TrailWF levOf
  infer_instance

instance levelChainDec (s : Solver) : Decidable (LevelChain s) := by
  unfold LevelChain
  infer_instance

instance reasonShapeDec (s : Solver) (v : Nat) :
    Decidable (reasonShapeAt s v) := by
  unfold reasonShapeAt
  infer_instance

instance reasonOkDec (s : Solver) : Decidable (ReasonOk s) := by
  unfold ReasonOk
  infer_instance

instance invDec (s : Solver) : Decidable (Inv s) := by
  unfold Inv
  infer_instance

/-- Claim C1 (failing behaviour of the code): adding the unit clause `{x0}`
and then the unit clause `{!x0}` via `add_clause` cannot make `solve` return
UNSAT — the second `add_clause` asserts the unit by calling `enqueue` on the
already-assigned variable 0, which violates `enqueue`'s precondition
(`assert(!levels[lit.vidx()].has_value())`) and aborts before `solve` can
run.  Unit clauses are never attached to watcher lists, so no level-0
propagation could detect the contradiction either. -/
theorem dual_unit_clauses_hit_enqueue_assert :
    (((mkSolver 1).add_clause [mkLit 0 true]) >>= fun s =>
        s.add_clause [mkLit 0 false])
      = .error "assert failed in enqueue: variable already assigned" := rfl

/-- Claim C2 (failing behaviour of the code): `add_clause` with the empty
clause does not succeed and does not render the formula UNSAT; it goes to
`attach_clause`, whose `assert(clause.size() > 1)` fails (in C++ with the
assert compiled out, `clause[0]` is then read out of bounds). -/
theorem empty_clause_hits_attach_assert :
    (mkSolver 0).add_clause []
      = .error "assert failed in attach_clause: clause.size() > 1" := rfl

/-- Claim C3 (failing behaviour of the code): adding the clause `{x3}` to a
solver with one variable calls `new_var` only once (the growth loop tests
`lit.vidx() >= assings.size()` once per literal and grows by one), leaving
the per-variable arrays with 2 slots instead of the 4 needed to cover
variable index 3.  The unit assertion of `x3` then writes `levels[3]`,
`assings[3]` out of bounds (undefined behaviour in C++; a lost write in this
model): the trail records `x3` but variable 3 has no stored level. -/
theorem gap_growth_leaves_variable_space_short :
    ((mkSolver 1).add_clause [mkLit 3 true]).map
        (fun t => (t.assings.length, t.levels.length, t.levels.getD 3 none, t.que))
      = .ok (2, 2, none, [mkLit 3 true]) := rfl

/-- Claim C10: `pop_queue_until` has the (spec-unstated) precondition that
the trail is non-empty: on an empty trail it fails `assert(!que.empty())`,
whatever the target level — including level 0. -/
theorem pop_queue_until_asserts_nonempty (s : Solver) (b : Int)
    (h : s.que = []) :
    s.pop_queue_until b
      = .error "assert failed in pop_queue_until: empty queue" := by
  simp [Solver.pop_queue_until, h]

/-- Witness for `pop_queue_until_asserts_nonempty` at a fresh solver and
target level 0. -/
theorem pop_queue_until_asserts_nonempty_witness :
    (mkSolver 3).pop_queue_until 0
      = .error "assert failed in pop_queue_until: empty queue" :=
  pop_queue_until_asserts_nonempty (mkSolver 3) 0 rfl

/-- Claim C4 counterexample: from the reachable state with trail
`[x0@0, x1@1]` (enqueue `x0` at level 0, decide `x1`), `pop_queue_until 0`
pops `x1` leaving a trail of length 1, but sets the propagation cursor to
`0 = length - 1`, not to the new trail length 1 as the claim states. -/
theorem pop_cursor_counterexample :
    ((((mkSolver 2).enqueue (mkLit 0 true) none >>= fun t =>
          t.new_decision (mkLit 1 true) none >>= fun u =>
          u.pop_queue_until 0).map (fun u => (u.que_head, u.que.length)))
        = .ok (0, 1))
    ∧ (0 : Nat) ≠ 1 := ⟨rfl, by decide⟩

/-- Claim C6 counterexample: from the reachable state `mkSolver 1` (decision
level 0, empty trail), assigning one literal via `enqueue` and then calling
`undo_until` with the prior decision level 0 does not restore the prior
state: the literal was assigned at level 0, `pop_queue_until 0` pops nothing,
and the trail is `[x0]`, not the prior `[]`. -/
theorem enqueue_undo_counterexample :
    ((((mkSolver 1).enqueue (mkLit 0 true) none >>= fun t =>
          t.pop_queue_until 0).map (fun u => u.que)) = .ok [mkLit 0 true])
    ∧ ([mkLit 0 true] : List Lit) ≠ (mkSolver 1).que := ⟨rfl, by decide⟩

/-- Claim C8: the two-watched-literal invariant — every stored clause `C`
(all of which have size ≥ 2) appears in exactly two watcher lists, the list
of `¬C[0]` and the list of `¬C[1]`, and in no other list — is established
by `attach_clause` on a fresh handle (every `attach_clause` call site
allocates a fresh, nowhere-watched handle of size ≥ 2 with in-range
literals) and preserved by every successful run of `propagate`, including
its in-clause swaps and watcher-list swap-pop moves. -/
theorem watcher_invariant_preserved (s s' : Solver) (h : WStep s s')
    (hW : WatchInv s) : WatchInv s' := by
  cases h with
  | attach cr lrnt s0 h1 h2 h3 h4 h5 =>
    exact attach_watch _ cr lrnt _ h1 h2 h3 h4 h5 hW
  | prop fuel s0 r hp =>
    exact propOuter_watch fuel _ _ r hp hW

theorem watcher_invariant_preserved_witness :
    WatchInv cWatch ∧ WatchInv cWatchAttached :=
  ⟨by decide, watcher_invariant_preserved cWatch cWatchAttached
    (WStep.attach cWatch 0 false cWatchAttached (by decide) (by decide)
      (by decide) (by decide) (by rfl)) (by decide)⟩

/-- Claim C9: the reason-shape invariant — for every assigned literal whose
antecedent is a clause `R`, `R[0]` is that literal and every other literal
of `R` is `False` with its negation on the trail at or before the
literal's position — is established when `propagate` enqueues a forced
literal with its clause as reason and when the asserting literal of a
learnt clause is enqueued with its reason (as `solve` does), and preserved
by the propagator's in-clause swaps, by decisions, and by backjumps; it is
stated as part of the combined reachable-state invariant `Inv` (lengths,
trail well-formedness, level chain, watcher consistency, reason shapes),
which every `RStep` preserves. -/
theorem reason_invariant_preserved (s s' : Solver) (h : RStep s s')
    (hInv : Inv s) : Inv s' := by
  cases h with
  | prop fuel s0 r hp =>
    exact propOuter_inv fuel _ _ r hp hInv
  | assertLit lit reason s0 hb hr henq =>
    obtain ⟨hLen, hT, hC, hW, hR⟩ := hInv
    obtain ⟨hfresh, he⟩ := enqueue_eq_of_ok _ _ lit reason henq
    have hparts := assign_inv s lit reason s.decision_level (le_refl _)
      (by omega) hfresh hb hLen hT hC hR hr s' (by rw [he]) (by rw [he])
      (by rw [he]) (by rw [he]) (by rw [he]) (by rw [he])
    exact ⟨hparts.1, hparts.2.1, hparts.2.2.1,
      watchInv_congr s s' (by rw [he]) (by rw [he]) (by rw [he]) hW,
      hparts.2.2.2⟩
  | decision lit s0 hb hd =>
    exact decision_inv s lit _ hb hd hInv
  | backjump b s0 hp =>
    exact backjump_inv s b _ hp hInv

theorem reason_invariant_preserved_witness : Inv cProp ∧ Inv cPropAfter :=
  ⟨by decide, reason_invariant_preserved cProp cPropAfter
    (RStep.prop cProp 5 cPropAfter none (by rfl)) (by decide)⟩

end bullsat
